import Mathlib

/-!
# Frame/output correlator of `mono2d_body_det_node.cpp`

A shallow embedding of `NodeOutputManage` (the two `Feed` overloads and `Erase`,
source lines 90-188) and of the part of `Mono2dBodyDetNode::PostProcess` that
drives it (source lines 330-351), followed by theorems about them.

Conventions.
* `uint64_t` timestamps are `Nat`; the only arithmetic on them is a subtraction
  guarded by a comparison, so no wrap-around can occur inside the correlator.
* `uint8_t loop_num` is a `Nat` reduced `% 256` at its assignment (line 129).
* `std::set<uint64_t>` is an ascending duplicate-free `List Nat`;
  `std::map<uint64_t, shared_ptr>` is a list of pairs ascending in the key.
  `begin()` is the head of the list.  The ordering invariant is `WF`.
* The mutex is not modelled: every call is executed atomically, one after the
  other.
-/

namespace Mono2d

/-! ## Data model -/

/-- Capture stamp `builtin_interfaces::msg::Time`: `int32_t sec`, `uint32_t nanosec`. -/
structure Time where
  sec : Int
  nanosec : Nat
  deriving DecidableEq, Repr

/-- Image header `std_msgs::msg::Header`; only the stamp is read by the correlator. -/
structure Header where
  stamp : Time
  deriving DecidableEq, Repr

/-- What a `std::shared_ptr<DnnNodeOutput>` can be: the null pointer, an object
that is not a `FasterRcnnOutput`, or a `FasterRcnnOutput` whose
`image_msg_header` pointer may be null.  `id` stands for the object identity. -/
inductive DnnNodeOutput where
  | null
  | other (id : Nat)
  | fasterRcnn (id : Nat) (image_msg_header : Option Header)
  deriving DecidableEq, Repr

/-- Modelled from the spec: the member declarations of `NodeOutputManage` are in
`include/mono2d_body_det_node.h`, which is not among the sources.  Following the
data model of the spec and the way the members are used in the source,
`cache_frame_` is an ordered set of timestamps and `cache_node_output_` an
ordered map from timestamp to result handle (ascending lists here).  The two
configuration constants are left arbitrary. -/
structure NodeOutputManage where
  cache_frame_ : List Nat
  cache_node_output_ : List (Nat × DnnNodeOutput)
  cache_size_limit_ : Nat
  smart_output_timeout_ms_ : Nat
  deriving DecidableEq, Repr

/-- A freshly constructed correlator: both registries empty. -/
def NodeOutputManage.init (limit timeout : Nat) : NodeOutputManage :=
  { cache_frame_ := [], cache_node_output_ := [],
    cache_size_limit_ := limit, smart_output_timeout_ms_ := timeout }

/-! ## Container operations -/

/-- The call `std::set::insert(x)` on an ascending list: no effect when `x` is present. -/
def setInsert (x : Nat) : List Nat → List Nat
  | [] => [x]
  | y :: ys =>
    if x < y then x :: y :: ys
    else if x = y then y :: ys
    else y :: setInsert x ys

/-- The assignment `m[k] = v` on a `std::map`: insert, or overwrite the value under `k`. -/
def mapAssign (k : Nat) (v : DnnNodeOutput) :
    List (Nat × DnnNodeOutput) → List (Nat × DnnNodeOutput)
  | [] => [(k, v)]
  | (k0, v0) :: m =>
    if k < k0 then (k, v) :: (k0, v0) :: m
    else if k = k0 then (k, v) :: m
    else (k0, v0) :: mapAssign k v m

/-- The call `std::set::erase(key)`: every element equal to the key goes. -/
def setErase (x : Nat) (l : List Nat) : List Nat :=
  l.filter (fun y => decide (y ≠ x))

/-- The call `std::map::erase(key)`. -/
def mapErase (k : Nat) (m : List (Nat × DnnNodeOutput)) : List (Nat × DnnNodeOutput) :=
  m.filter (fun e => decide (e.1 ≠ k))

/-- Keys of the result registry, in registry order. -/
def keys (m : List (Nat × DnnNodeOutput)) : List Nat := m.map Prod.fst

/-- Representation invariant of the two ordered containers: strictly ascending keys. -/
def NodeOutputManage.WF (m : NodeOutputManage) : Prop :=
  m.cache_frame_.Pairwise (· < ·) ∧ (keys m.cache_node_output_).Pairwise (· < ·)

/-! ## Timestamp key -/

/-- The expression `stamp.sec * 1000 + stamp.nanosec / 1000 / 1000` (lines 114-115,
346-347, 754-755).  `sec * 1000` is an `int` product, the sum with the `uint32_t`
quotient is an `unsigned int`; the value is widened to `uint64_t` afterwards.
Signed overflow is taken to wrap, as it does on the target. -/
def stampToMs (t : Time) : Nat :=
  ((t.sec * 1000 + ((t.nanosec / 1000 / 1000 : Nat) : Int)) % (2 ^ 32 : Int)).toNat

/-! ## `NodeOutputManage::Feed(uint64_t)` (lines 90-102) -/

/-- Registers a frame timestamp; evicts `begin()` when the set outgrows the limit. -/
def NodeOutputManage.FeedTs (m : NodeOutputManage) (ts_ms : Nat) : NodeOutputManage :=
  let cf := setInsert ts_ms m.cache_frame_
  if cf.length > m.cache_size_limit_ then
    { m with cache_frame_ := cf.tail }
  else
    { m with cache_frame_ := cf }

/-! ## `NodeOutputManage::Feed(const std::shared_ptr<DnnNodeOutput>&)` (lines 104-178) -/

/-- Lines 172-174: `if (node_output) node_outputs.emplace_back(node_output)`. -/
def emplaceIfSet (node_outputs : List DnnNodeOutput) (node_output : DnnNodeOutput) :
    List DnnNodeOutput :=
  if node_output = DnnNodeOutput.null then node_outputs else node_outputs ++ [node_output]

/-- The `for` loop of lines 137-175 with `n` iterations left.  `in_node_output`
is the argument of the enclosing `Feed`; the accumulator is `node_outputs`. -/
def drain (in_node_output : DnnNodeOutput) :
    Nat → NodeOutputManage → List DnnNodeOutput → NodeOutputManage × List DnnNodeOutput
  | 0, m, node_outputs => (m, node_outputs)
  | n + 1, m, node_outputs =>
    match m.cache_frame_, m.cache_node_output_ with
    | [], _ => (m, node_outputs)
    | _ :: _, [] => (m, node_outputs)
    | first_frame :: fs, (first_output, _) :: os =>
      if first_frame = first_output then
        drain in_node_output n { m with cache_frame_ := fs, cache_node_output_ := os }
          (emplaceIfSet node_outputs in_node_output)
      else if first_output > first_frame then
        if first_output - first_frame > m.smart_output_timeout_ms_ then
          drain in_node_output n { m with cache_frame_ := fs } node_outputs
        else
          drain in_node_output n m node_outputs
      else if first_frame > first_output then
        if first_frame - first_output > m.smart_output_timeout_ms_ then
          drain in_node_output n { m with cache_node_output_ := os } node_outputs
        else
          drain in_node_output n m node_outputs
      else
        (m, node_outputs)

/-- Lines 118-130: bounded insertion of the result under `ts_ms`. -/
def insertOutput (m : NodeOutputManage) (ts_ms : Nat) (in_node_output : DnnNodeOutput) :
    NodeOutputManage :=
  let co := mapAssign ts_ms in_node_output m.cache_node_output_
  if co.length > m.cache_size_limit_ then
    { m with cache_node_output_ := co.tail }
  else
    { m with cache_node_output_ := co }

/-- Lines 118-177 once `ts_ms` has been computed. -/
def feedAt (m : NodeOutputManage) (ts_ms : Nat) (in_node_output : DnnNodeOutput) :
    NodeOutputManage × List DnnNodeOutput :=
  let m1 := insertOutput m ts_ms in_node_output
  if m1.cache_frame_.isEmpty then
    (m1, [])
  else
    drain in_node_output (m1.cache_node_output_.length % 256) m1 []

/-- The whole function: the validity test of lines 107-111, the key of lines
113-115, then the insertion and the loop. -/
def NodeOutputManage.Feed (m : NodeOutputManage) (in_node_output : DnnNodeOutput) :
    NodeOutputManage × List DnnNodeOutput :=
  match in_node_output with
  | DnnNodeOutput.fasterRcnn _ (some image_msg_header) =>
    feedAt m (stampToMs image_msg_header.stamp) in_node_output
  | _ => (m, [])

/-! ## `NodeOutputManage::Erase` (lines 180-188) -/

/-- Removes the key from both registries when present. -/
def NodeOutputManage.Erase (m : NodeOutputManage) (ts_ms : Nat) : NodeOutputManage :=
  let cf := if ts_ms ∈ m.cache_frame_ then setErase ts_ms m.cache_frame_ else m.cache_frame_
  let co :=
    if ts_ms ∈ keys m.cache_node_output_ then mapErase ts_ms m.cache_node_output_
    else m.cache_node_output_
  { m with cache_frame_ := cf, cache_node_output_ := co }

/-! ## Ghost trace of the loop -/

/-- The matches made by `drain`, in order: each entry is the matched key together
with the correlator as it stood when the two heads were compared.  The recursion
is that of `drain`; only what is recorded differs. -/
def drainLog : Nat → NodeOutputManage → List (Nat × NodeOutputManage)
  | 0, _ => []
  | n + 1, m =>
    match m.cache_frame_, m.cache_node_output_ with
    | [], _ => []
    | _ :: _, [] => []
    | first_frame :: fs, (first_output, _) :: os =>
      if first_frame = first_output then
        (first_frame, m) :: drainLog n { m with cache_frame_ := fs, cache_node_output_ := os }
      else if first_output > first_frame then
        if first_output - first_frame > m.smart_output_timeout_ms_ then
          drainLog n { m with cache_frame_ := fs }
        else
          drainLog n m
      else if first_frame > first_output then
        if first_frame - first_output > m.smart_output_timeout_ms_ then
          drainLog n { m with cache_node_output_ := os }
        else
          drainLog n m
      else
        []

/-- Matches made by `feedAt`. -/
def feedAtLog (m : NodeOutputManage) (ts_ms : Nat) (in_node_output : DnnNodeOutput) :
    List (Nat × NodeOutputManage) :=
  let m1 := insertOutput m ts_ms in_node_output
  if m1.cache_frame_.isEmpty then [] else drainLog (m1.cache_node_output_.length % 256) m1

/-- Matches made by one call of `Feed` on a result. -/
def NodeOutputManage.FeedLog (m : NodeOutputManage) (in_node_output : DnnNodeOutput) :
    List (Nat × NodeOutputManage) :=
  match in_node_output with
  | DnnNodeOutput.fasterRcnn _ (some image_msg_header) =>
    feedAtLog m (stampToMs image_msg_header.stamp) in_node_output
  | _ => []

/-! ## Sequences of calls -/

/-- One call on the correlator. -/
inductive Call where
  | notify_frame (ts_ms : Nat)
  | notify_result (node_output : DnnNodeOutput)
  | forget (ts_ms : Nat)
  deriving DecidableEq, Repr

/-- Effect of one call: the next state and what the call returns. -/
def step (m : NodeOutputManage) : Call → NodeOutputManage × List DnnNodeOutput
  | Call.notify_frame ts_ms => (m.FeedTs ts_ms, [])
  | Call.notify_result node_output => m.Feed node_output
  | Call.forget ts_ms => (m.Erase ts_ms, [])

/-- Runs the calls in order; returns the final state and the concatenation of
the return values in call order. -/
def run : NodeOutputManage → List Call → NodeOutputManage × List DnnNodeOutput
  | m, [] => (m, [])
  | m, c :: cs =>
    let r := step m c
    let rest := run r.1 cs
    (rest.1, r.2 ++ rest.2)

/-- Keys matched over a run, in order. -/
def runLog : NodeOutputManage → List Call → List Nat
  | _, [] => []
  | m, c :: cs =>
    match c with
    | Call.notify_result node_output =>
      (m.FeedLog node_output).map Prod.fst ++ runLog (m.Feed node_output).1 cs
    | _ => runLog (step m c).1 cs

/-- Timestamps passed to `notify_frame`, in call order. -/
def frameArgs : List Call → List Nat
  | [] => []
  | Call.notify_frame ts_ms :: cs => ts_ms :: frameArgs cs
  | _ :: cs => frameArgs cs

/-- Timestamp key of a handle, when it has one. -/
def keyOf : DnnNodeOutput → Option Nat
  | DnnNodeOutput.fasterRcnn _ (some image_msg_header) => some (stampToMs image_msg_header.stamp)
  | _ => none

/-- A result handle with identity `id` stamped `ms` milliseconds after the epoch. -/
def mkOutput (id ms : Nat) : DnnNodeOutput :=
  DnnNodeOutput.fasterRcnn id
    (some { stamp := { sec := ((ms / 1000 : Nat) : Int), nanosec := (ms % 1000) * 1000000 } })

/-! ## `Mono2dBodyDetNode::PostProcess`, lines 330-351 -/

/-- The correlation part of `PostProcess` on the path where the node is running,
the publisher exists and `node_output_manage_ptr_` is set.  Returns the next
correlator state and the results the `for` loop of line 351 goes on to handle
(null entries are skipped there); `none` is the early `return -1` of line 343. -/
def PostProcess (m : NodeOutputManage) (output : DnnNodeOutput) :
    NodeOutputManage × Option (List DnnNodeOutput) :=
  let r := m.Feed output
  if r.2.isEmpty then
    match output with
    | DnnNodeOutput.fasterRcnn _ (some image_msg_header) =>
      (r.1.Erase (stampToMs image_msg_header.stamp),
        some ([output].filter (fun o => decide (o ≠ DnnNodeOutput.null))))
    | _ => (r.1, none)
  else
    (r.1, some (r.2.filter (fun o => decide (o ≠ DnnNodeOutput.null))))

/-- What happens in the pipeline: a frame is registered, or an inference
completes with a `FasterRcnnOutput` that carries a header. -/
inductive PipelineEvent where
  | frame (ts_ms : Nat)
  | completion (id : Nat) (image_msg_header : Header)
  deriving DecidableEq, Repr

/-- Runs the events one after the other; returns the final correlator and, for
each completion, what `PostProcess` went on to handle. -/
def pipeline : NodeOutputManage → List PipelineEvent →
    NodeOutputManage × List (Option (List DnnNodeOutput))
  | m, [] => (m, [])
  | m, PipelineEvent.frame ts_ms :: es => pipeline (m.FeedTs ts_ms) es
  | m, PipelineEvent.completion id image_msg_header :: es =>
    let r := PostProcess m (DnnNodeOutput.fasterRcnn id (some image_msg_header))
    let rest := pipeline r.1 es
    (rest.1, r.2 :: rest.2)


/-- Number of inference completions among the events. -/
def completions : List PipelineEvent → Nat
  | [] => 0
  | PipelineEvent.frame _ :: es => completions es
  | PipelineEvent.completion _ _ :: es => completions es + 1

/-- The handle that the result registry holds under its smallest key in the
recorded state of a match, that is, the handle stored for the matched key at the
moment of the match. -/
def storedAt (e : Nat × NodeOutputManage) : Option DnnNodeOutput :=
  e.2.cache_node_output_.head?.map Prod.snd

/-- The exact number of milliseconds since the epoch of a stamp:
`sec * 1000 + floor(nanosec / 1000000)` over the integers. -/
def exactMs (t : Time) : Int :=
  t.sec * 1000 + ((t.nanosec / 1000000 : Nat) : Int)

/-! ## Predicates used in the statements -/

/-- Both registries within the configured limit. -/
def NodeOutputManage.Bounded (m : NodeOutputManage) : Prop :=
  m.cache_frame_.length ≤ m.cache_size_limit_ ∧
  m.cache_node_output_.length ≤ m.cache_size_limit_

/-- The registry `S` holds the `L` largest members of `D`: it is ascending, a
part of `D`, no longer than `L`, and whatever member of `D` it leaves out lies
below a full registry. -/
def TopOf (L : Nat) (S D : List Nat) : Prop :=
  S.Pairwise (· < ·) ∧ (∀ s ∈ S, s ∈ D) ∧ S.length ≤ L ∧
  ∀ d ∈ D, d ∉ S → S.length = L ∧ ∀ s ∈ S, d < s

/-- One iteration of the loop took state `a` to state `b` by removing a head
entry: both registries of `a` are non-empty and `b` is `a` without the two heads
(a match), without the head of the frame registry (a stale frame) or without the
head of the result registry (a stale result); nothing else differs. -/
def RemovedHead (a b : NodeOutputManage) : Prop :=
  a.cache_frame_ ≠ [] ∧ a.cache_node_output_ ≠ [] ∧
  b.cache_size_limit_ = a.cache_size_limit_ ∧
  b.smart_output_timeout_ms_ = a.smart_output_timeout_ms_ ∧
  ((b.cache_frame_ = a.cache_frame_.tail ∧ b.cache_node_output_ = a.cache_node_output_.tail) ∨
    (b.cache_frame_ = a.cache_frame_.tail ∧ b.cache_node_output_ = a.cache_node_output_) ∨
    (b.cache_frame_ = a.cache_frame_ ∧ b.cache_node_output_ = a.cache_node_output_.tail))

/-- Nothing is left for the loop to resolve: a registry is empty, or the two
smallest keys are unequal and at most the timeout apart. -/
def NodeOutputManage.Quiescent (m : NodeOutputManage) : Prop :=
  match m.cache_frame_, m.cache_node_output_ with
  | [], _ => True
  | _ :: _, [] => True
  | first_frame :: _, (first_output, _) :: _ =>
    first_frame ≠ first_output ∧
    first_output - first_frame ≤ m.smart_output_timeout_ms_ ∧
    first_frame - first_output ≤ m.smart_output_timeout_ms_

instance (m : NodeOutputManage) : Decidable m.Quiescent := by
  unfold NodeOutputManage.Quiescent
  split <;> infer_instance

instance (m : NodeOutputManage) : Decidable m.WF := by
  unfold NodeOutputManage.WF
  infer_instance

instance (m : NodeOutputManage) : Decidable m.Bounded := by
  unfold NodeOutputManage.Bounded
  infer_instance

/-! ## Basic facts -/

theorem setInsert_length_le (x : Nat) (l : List Nat) : (setInsert x l).length ≤ l.length + 1 := by
  induction l with
  | nil => simp [setInsert]
  | cons y ys ih =>
    simp only [setInsert]
    split_ifs <;> simp only [List.length_cons] <;> omega

theorem mapAssign_length_le (k : Nat) (v : DnnNodeOutput) (m : List (Nat × DnnNodeOutput)) :
    (mapAssign k v m).length ≤ m.length + 1 := by
  induction m with
  | nil => simp [mapAssign]
  | cons e es ih =>
    obtain ⟨k0, v0⟩ := e
    simp only [mapAssign]
    split_ifs <;> simp only [List.length_cons] <;> omega

/-- What the loop leaves untouched and what it can only shrink. -/
theorem drain_frame (h : DnnNodeOutput) (n : Nat) (m : NodeOutputManage) (acc : List DnnNodeOutput) :
    (drain h n m acc).1.cache_size_limit_ = m.cache_size_limit_ ∧
    (drain h n m acc).1.smart_output_timeout_ms_ = m.smart_output_timeout_ms_ ∧
    (drain h n m acc).1.cache_frame_ <:+ m.cache_frame_ ∧
    (drain h n m acc).1.cache_node_output_ <:+ m.cache_node_output_ := by
  induction n generalizing m acc with
  | zero => simp [drain]
  | succ n ih =>
    rw [drain]
    split
    · simp
    · simp
    · next ff fs fo v os hf ho =>
      split_ifs
      · obtain ⟨h1, h2, h3, h4⟩ := ih { m with cache_frame_ := fs, cache_node_output_ := os }
          (emplaceIfSet acc h)
        refine ⟨h1, h2, ?_, ?_⟩
        · rw [hf]; exact h3.trans (List.suffix_cons _ _)
        · rw [ho]; exact h4.trans (List.suffix_cons _ _)
      · obtain ⟨h1, h2, h3, h4⟩ := ih { m with cache_frame_ := fs } acc
        refine ⟨h1, h2, ?_, h4⟩
        rw [hf]; exact h3.trans (List.suffix_cons _ _)
      · exact ih m acc
      · obtain ⟨h1, h2, h3, h4⟩ := ih { m with cache_node_output_ := os } acc
        refine ⟨h1, h2, h3, ?_⟩
        rw [ho]; exact h4.trans (List.suffix_cons _ _)
      · exact ih m acc
      · simp


/-- The loop consumes a prefix of the frame registry, and the matched keys are
picked from that prefix in order. -/
theorem drain_decomp (h : DnnNodeOutput) (n : Nat) (m : NodeOutputManage)
    (acc : List DnnNodeOutput) :
    ∃ pre, m.cache_frame_ = pre ++ (drain h n m acc).1.cache_frame_ ∧
      ((drainLog n m).map Prod.fst).Sublist pre := by
  induction n generalizing m acc with
  | zero => exact ⟨[], by simp [drain, drainLog]⟩
  | succ n ih =>
    rw [drain, drainLog]
    split
    · next hf => exact ⟨[], by simp⟩
    · next hf ho => exact ⟨[], by simp⟩
    · next ff fs fo v os hf ho =>
      split_ifs
      · obtain ⟨pre, h1, h2⟩ := ih { m with cache_frame_ := fs, cache_node_output_ := os }
          (emplaceIfSet acc h)
        refine ⟨ff :: pre, ?_, ?_⟩
        · rw [hf, List.cons_append]
          exact congrArg (List.cons ff) h1
        · simpa using h2
      · obtain ⟨pre, h1, h2⟩ := ih { m with cache_frame_ := fs } acc
        refine ⟨ff :: pre, ?_, ?_⟩
        · rw [hf, List.cons_append]
          exact congrArg (List.cons ff) h1
        · exact List.Sublist.cons ff h2
      · obtain ⟨pre, h1, h2⟩ := ih m acc
        exact ⟨pre, h1, h2⟩
      · obtain ⟨pre, h1, h2⟩ := ih { m with cache_node_output_ := os } acc
        exact ⟨pre, h1, h2⟩
      · obtain ⟨pre, h1, h2⟩ := ih m acc
        exact ⟨pre, h1, h2⟩
      · exact ⟨[], by simp⟩

/-- Every recorded match was made on the heads of both registries, in a state
whose registries are suffixes of the initial ones. -/
theorem drainLog_snapshot (n : Nat) (m : NodeOutputManage) :
    ∀ e ∈ drainLog n m,
      e.2.cache_frame_ <:+ m.cache_frame_ ∧
      e.2.cache_node_output_ <:+ m.cache_node_output_ ∧
      e.2.cache_frame_.head? = some e.1 ∧
      (keys e.2.cache_node_output_).head? = some e.1 := by
  induction n generalizing m with
  | zero => simp [drainLog]
  | succ n ih =>
    rw [drainLog]
    split
    · simp
    · simp
    · next ff fs fo v os hf ho =>
      have sf : fs <:+ m.cache_frame_ := by rw [hf]; exact List.suffix_cons _ _
      have so : os <:+ m.cache_node_output_ := by rw [ho]; exact List.suffix_cons _ _
      split_ifs with heq
      · intro e he
        rcases List.mem_cons.1 he with rfl | he
        · refine ⟨List.suffix_refl _, List.suffix_refl _, ?_, ?_⟩
          · simp [hf]
          · simp [ho, keys, heq]
        · obtain ⟨h1, h2, h3, h4⟩ :=
            ih { m with cache_frame_ := fs, cache_node_output_ := os } e he
          exact ⟨h1.trans sf, h2.trans so, h3, h4⟩
      · intro e he
        obtain ⟨h1, h2, h3, h4⟩ := ih { m with cache_frame_ := fs } e he
        exact ⟨h1.trans sf, h2, h3, h4⟩
      · exact ih m
      · intro e he
        obtain ⟨h1, h2, h3, h4⟩ := ih { m with cache_node_output_ := os } e he
        exact ⟨h1, h2.trans so, h3, h4⟩
      · exact ih m
      · simp

/-- The returned vector grows by one copy of the incoming handle per match. -/
theorem drain_outputs (h : DnnNodeOutput) (hn : h ≠ DnnNodeOutput.null) (n : Nat)
    (m : NodeOutputManage) (acc : List DnnNodeOutput) :
    (drain h n m acc).2 = acc ++ (drainLog n m).map (fun _ => h) := by
  induction n generalizing m acc with
  | zero => simp [drain, drainLog]
  | succ n ih =>
    rw [drain, drainLog]
    split
    · simp
    · simp
    · split_ifs
      · rw [ih]
        simp [emplaceIfSet, hn]
      · exact ih _ _
      · exact ih _ _
      · exact ih _ _
      · exact ih _ _
      · simp


/-! ## One call at a time -/

theorem insertOutput_fields (m : NodeOutputManage) (ts : Nat) (h : DnnNodeOutput) :
    (insertOutput m ts h).cache_frame_ = m.cache_frame_ ∧
    (insertOutput m ts h).cache_size_limit_ = m.cache_size_limit_ ∧
    (insertOutput m ts h).smart_output_timeout_ms_ = m.smart_output_timeout_ms_ := by
  simp only [insertOutput]
  split_ifs <;> simp

theorem insertOutput_length (m : NodeOutputManage) (ts : Nat) (h : DnnNodeOutput)
    (hb : m.cache_node_output_.length ≤ m.cache_size_limit_) :
    (insertOutput m ts h).cache_node_output_.length ≤ m.cache_size_limit_ := by
  have hl := mapAssign_length_le ts h m.cache_node_output_
  simp only [insertOutput]
  split_ifs with hc
  · simp only [List.length_tail]
    omega
  · simpa using hc

theorem FeedTs_limit (m : NodeOutputManage) (ts : Nat) :
    (m.FeedTs ts).cache_size_limit_ = m.cache_size_limit_ ∧
    (m.FeedTs ts).smart_output_timeout_ms_ = m.smart_output_timeout_ms_ ∧
    (m.FeedTs ts).cache_node_output_ = m.cache_node_output_ := by
  simp only [NodeOutputManage.FeedTs]
  split_ifs <;> simp

theorem FeedTs_bounded (m : NodeOutputManage) (ts : Nat) (hb : m.Bounded) :
    (m.FeedTs ts).Bounded := by
  have hl := setInsert_length_le ts m.cache_frame_
  obtain ⟨hf, ho⟩ := hb
  simp only [NodeOutputManage.Bounded, NodeOutputManage.FeedTs]
  split_ifs with hc
  · simp only [List.length_tail]
    exact ⟨by omega, ho⟩
  · exact ⟨by simpa using hc, ho⟩

theorem feedAt_limit (m : NodeOutputManage) (ts : Nat) (h : DnnNodeOutput) :
    (feedAt m ts h).1.cache_size_limit_ = m.cache_size_limit_ ∧
    (feedAt m ts h).1.smart_output_timeout_ms_ = m.smart_output_timeout_ms_ := by
  obtain ⟨_, h2, h3⟩ := insertOutput_fields m ts h
  unfold feedAt
  simp only
  split_ifs
  · exact ⟨h2, h3⟩
  · obtain ⟨d1, d2, _, _⟩ := drain_frame h
      ((insertOutput m ts h).cache_node_output_.length % 256) (insertOutput m ts h) []
    exact ⟨d1.trans h2, d2.trans h3⟩

theorem feedAt_bounded (m : NodeOutputManage) (ts : Nat) (h : DnnNodeOutput) (hb : m.Bounded) :
    (feedAt m ts h).1.Bounded := by
  obtain ⟨h1, h2, _⟩ := insertOutput_fields m ts h
  have h4 := insertOutput_length m ts h hb.2
  have hlim := (feedAt_limit m ts h).1
  unfold NodeOutputManage.Bounded
  rw [hlim]
  unfold feedAt
  simp only
  split_ifs
  · exact ⟨by rw [h1]; exact hb.1, h4⟩
  · obtain ⟨_, _, d3, d4⟩ := drain_frame h
      ((insertOutput m ts h).cache_node_output_.length % 256) (insertOutput m ts h) []
    refine ⟨?_, ?_⟩
    · have := d3.length_le
      rw [h1] at this
      exact this.trans hb.1
    · exact d4.length_le.trans h4

theorem Feed_limit (m : NodeOutputManage) (h : DnnNodeOutput) :
    (m.Feed h).1.cache_size_limit_ = m.cache_size_limit_ ∧
    (m.Feed h).1.smart_output_timeout_ms_ = m.smart_output_timeout_ms_ := by
  unfold NodeOutputManage.Feed
  split
  · exact feedAt_limit _ _ _
  · simp

theorem Feed_bounded (m : NodeOutputManage) (h : DnnNodeOutput) (hb : m.Bounded) :
    (m.Feed h).1.Bounded := by
  unfold NodeOutputManage.Feed
  split
  · exact feedAt_bounded _ _ _ hb
  · exact hb

theorem Erase_limit (m : NodeOutputManage) (ts : Nat) :
    (m.Erase ts).cache_size_limit_ = m.cache_size_limit_ ∧
    (m.Erase ts).smart_output_timeout_ms_ = m.smart_output_timeout_ms_ := by
  simp [NodeOutputManage.Erase]

theorem Erase_bounded (m : NodeOutputManage) (ts : Nat) (hb : m.Bounded) :
    (m.Erase ts).Bounded := by
  obtain ⟨hf, ho⟩ := hb
  unfold NodeOutputManage.Bounded NodeOutputManage.Erase
  simp only
  refine ⟨?_, ?_⟩
  · split_ifs
    · exact (List.length_filter_le _ _).trans hf
    · exact hf
  · split_ifs
    · exact (List.length_filter_le _ _).trans ho
    · exact ho

theorem step_limit (m : NodeOutputManage) (c : Call) :
    (step m c).1.cache_size_limit_ = m.cache_size_limit_ ∧
    (step m c).1.smart_output_timeout_ms_ = m.smart_output_timeout_ms_ := by
  cases c with
  | notify_frame ts => exact ⟨(FeedTs_limit m ts).1, (FeedTs_limit m ts).2.1⟩
  | notify_result h => exact Feed_limit m h
  | forget ts => exact Erase_limit m ts

theorem step_bounded (m : NodeOutputManage) (c : Call) (hb : m.Bounded) :
    (step m c).1.Bounded := by
  cases c with
  | notify_frame ts => exact FeedTs_bounded m ts hb
  | notify_result h => exact Feed_bounded m h hb
  | forget ts => exact Erase_bounded m ts hb

theorem run_bounded (m : NodeOutputManage) (calls : List Call) (hb : m.Bounded) :
    (run m calls).1.Bounded ∧ (run m calls).1.cache_size_limit_ = m.cache_size_limit_ := by
  induction calls generalizing m with
  | nil => exact ⟨hb, rfl⟩
  | cons c cs ih =>
    obtain ⟨h1, h2⟩ := ih (step m c).1 (step_bounded m c hb)
    exact ⟨h1, h2.trans (step_limit m c).1⟩

/-! ## C1 -/

/-- C1 (bounded memory): whatever the limit `L` and the timeout, after each call
of any finite sequence of `notify_frame`, `notify_result` and `forget` calls on
an initially empty correlator (the state after the first `n` calls, for every
`n`), the frame registry has at most `L` keys and the result registry at most
`L` entries. -/
theorem bounded_memory (L T : Nat) (calls : List Call) (n : Nat) :
    (run (NodeOutputManage.init L T) (calls.take n)).1.cache_frame_.length ≤ L ∧
    (run (NodeOutputManage.init L T) (calls.take n)).1.cache_node_output_.length ≤ L := by
  have hb : (NodeOutputManage.init L T).Bounded := by
    simp [NodeOutputManage.Bounded, NodeOutputManage.init]
  obtain ⟨h1, h2⟩ := run_bounded (NodeOutputManage.init L T) (calls.take n) hb
  have h3 : (run (NodeOutputManage.init L T) (calls.take n)).1.cache_size_limit_ = L := h2
  unfold NodeOutputManage.Bounded at h1
  rw [h3] at h1
  exact h1


/-! ## Matches consume frame registrations -/

theorem feedAt_decomp (m : NodeOutputManage) (ts : Nat) (h : DnnNodeOutput) :
    ∃ pre, m.cache_frame_ = pre ++ (feedAt m ts h).1.cache_frame_ ∧
      ((feedAtLog m ts h).map Prod.fst).Sublist pre := by
  obtain ⟨h1, _, _⟩ := insertOutput_fields m ts h
  unfold feedAt feedAtLog
  simp only
  split_ifs
  · exact ⟨[], by simp [h1]⟩
  · obtain ⟨pre, d1, d2⟩ := drain_decomp h
      ((insertOutput m ts h).cache_node_output_.length % 256) (insertOutput m ts h) []
    exact ⟨pre, by rw [← h1]; exact d1, d2⟩

theorem Feed_decomp (m : NodeOutputManage) (h : DnnNodeOutput) :
    ∃ pre, m.cache_frame_ = pre ++ (m.Feed h).1.cache_frame_ ∧
      ((m.FeedLog h).map Prod.fst).Sublist pre := by
  unfold NodeOutputManage.Feed NodeOutputManage.FeedLog
  split
  · exact feedAt_decomp _ _ _
  · exact ⟨[], by simp⟩

theorem setInsert_subperm (x : Nat) (l : List Nat) : (setInsert x l).Subperm (x :: l) := by
  induction l with
  | nil => exact List.Subperm.refl _
  | cons y ys ih =>
    simp only [setInsert]
    split_ifs
    · exact List.Subperm.refl _
    · exact List.Subperm.cons_self
    · exact ((List.subperm_cons y).2 ih).trans (List.Perm.swap x y ys).subperm

theorem setInsert_of_all_le (x : Nat) (l : List Nat) (hl : ∀ y ∈ l, y ≤ x) :
    (setInsert x l).Sublist (l ++ [x]) := by
  induction l with
  | nil => exact List.Sublist.refl _
  | cons y ys ih =>
    have hy : y ≤ x := hl y (List.mem_cons_self _ _)
    have h1 : ¬ x < y := by omega
    simp only [setInsert, h1, if_false, List.cons_append]
    split_ifs
    · exact (List.sublist_append_left ys [x]).cons₂ y
    · exact (ih (fun z hz => hl z (List.mem_cons_of_mem _ hz))).cons₂ y

theorem FeedTs_frames_sublist (m : NodeOutputManage) (ts : Nat) :
    (m.FeedTs ts).cache_frame_.Sublist (setInsert ts m.cache_frame_) := by
  simp only [NodeOutputManage.FeedTs]
  split_ifs
  · exact List.tail_sublist _
  · exact List.Sublist.refl _

theorem Erase_frames_sublist (m : NodeOutputManage) (ts : Nat) :
    (m.Erase ts).cache_frame_.Sublist m.cache_frame_ := by
  simp only [NodeOutputManage.Erase]
  split_ifs
  · exact List.filter_sublist _
  · exact List.Sublist.refl _

/-- Every match uses up one frame registration: the matched keys of a run are,
up to order, drawn without repetition from the frames pending at the start and
the timestamps passed to `notify_frame` during the run. -/
theorem runLog_subperm (m : NodeOutputManage) (calls : List Call) :
    (runLog m calls).Subperm (m.cache_frame_ ++ frameArgs calls) := by
  induction calls generalizing m with
  | nil => exact (List.nil_sublist _).subperm
  | cons c cs ih =>
    cases c with
    | notify_frame ts =>
      simp only [runLog, step, frameArgs]
      refine (ih (m.FeedTs ts)).trans ?_
      have h1 : (m.FeedTs ts).cache_frame_.Subperm (ts :: m.cache_frame_) :=
        (FeedTs_frames_sublist m ts).subperm.trans (setInsert_subperm ts _)
      refine ((List.subperm_append_right (frameArgs cs)).2 h1).trans ?_
      exact (List.perm_middle.symm).subperm
    | notify_result h =>
      simp only [runLog, frameArgs]
      obtain ⟨pre, h1, h2⟩ := Feed_decomp m h
      have h3 := ih (m.Feed h).1
      rw [h1, List.append_assoc]
      exact ((List.subperm_append_right _).2 h2.subperm).trans
        ((List.subperm_append_left pre).2 h3)
    | forget ts =>
      simp only [runLog, step, frameArgs]
      refine (ih (m.Erase ts)).trans ?_
      exact (List.subperm_append_right _).2 (Erase_frames_sublist m ts).subperm

/-- When the pending frames followed by the timestamps still to be registered
are non-decreasing, the matched keys of the run are picked from that sequence in
order. -/
theorem runLog_sublist (m : NodeOutputManage) (calls : List Call)
    (hp : (m.cache_frame_ ++ frameArgs calls).Pairwise (· ≤ ·)) :
    (runLog m calls).Sublist (m.cache_frame_ ++ frameArgs calls) := by
  induction calls generalizing m with
  | nil => exact List.nil_sublist _
  | cons c cs ih =>
    cases c with
    | notify_frame ts =>
      simp only [runLog, step, frameArgs] at hp ⊢
      have hle : ∀ y ∈ m.cache_frame_, y ≤ ts := by
        intro y hy
        exact (List.pairwise_append.1 hp).2.2 y hy ts (List.mem_cons_self _ _)
      have h1 : ((m.FeedTs ts).cache_frame_ ++ frameArgs cs).Sublist
          (m.cache_frame_ ++ ts :: frameArgs cs) := by
        have h2 := ((FeedTs_frames_sublist m ts).trans
          (setInsert_of_all_le ts _ hle)).append (List.Sublist.refl (frameArgs cs))
        simpa using h2
      exact (ih (m.FeedTs ts) (hp.sublist h1)).trans h1
    | notify_result h =>
      simp only [runLog, frameArgs] at hp ⊢
      obtain ⟨pre, h1, h2⟩ := Feed_decomp m h
      have h4 : ((m.Feed h).1.cache_frame_ ++ frameArgs cs).Sublist
          (m.cache_frame_ ++ frameArgs cs) := by
        rw [h1, List.append_assoc]
        exact List.sublist_append_right _ _
      have h3 := ih (m.Feed h).1 (hp.sublist h4)
      rw [h1, List.append_assoc]
      exact h2.append h3
    | forget ts =>
      simp only [runLog, step, frameArgs] at hp ⊢
      have h1 : ((m.Erase ts).cache_frame_ ++ frameArgs cs).Sublist
          (m.cache_frame_ ++ frameArgs cs) :=
        (Erase_frames_sublist m ts).append (List.Sublist.refl _)
      exact (ih (m.Erase ts) (hp.sublist h1)).trans h1

/-! ## The returned vector and the matches -/

theorem feedAt_outputs (m : NodeOutputManage) (ts : Nat) (h : DnnNodeOutput)
    (hn : h ≠ DnnNodeOutput.null) :
    (feedAt m ts h).2 = (feedAtLog m ts h).map (fun _ => h) := by
  unfold feedAt feedAtLog
  simp only
  split_ifs
  · rfl
  · rw [drain_outputs h hn]
    rfl

/-- One call returns one copy of its argument per match it makes. -/
theorem Feed_outputs (m : NodeOutputManage) (h : DnnNodeOutput) :
    (m.Feed h).2 = (m.FeedLog h).map (fun _ => h) := by
  unfold NodeOutputManage.Feed NodeOutputManage.FeedLog
  split
  · exact feedAt_outputs _ _ _ (by simp)
  · rfl

/-- Over a run, as many entries are returned as matches are made. -/
theorem run_outputs_length (m : NodeOutputManage) (calls : List Call) :
    (run m calls).2.length = (runLog m calls).length := by
  induction calls generalizing m with
  | nil => rfl
  | cons c cs ih =>
    cases c with
    | notify_frame ts => simpa [run, runLog, step] using ih (m.FeedTs ts)
    | notify_result h =>
      simp only [run, runLog, step, List.length_append, List.length_map, ih]
      rw [Feed_outputs, List.length_map]
    | forget ts => simpa [run, runLog, step] using ih (m.Erase ts)

/-- The returned handle need not carry the matched key: a result stamped 10
waits in the registry, the frames 10 and 20 are registered, and the result
stamped 20 arrives.  The call matches the keys 10 and 20 and returns its own
argument for both. -/
theorem returned_handle_not_keyed_by_match :
    runLog (NodeOutputManage.init 10 1000)
      [Call.notify_result (mkOutput 1 10), Call.notify_frame 10, Call.notify_frame 20,
        Call.notify_result (mkOutput 2 20)] = [10, 20] ∧
    (run (NodeOutputManage.init 10 1000)
      [Call.notify_result (mkOutput 1 10), Call.notify_frame 10, Call.notify_frame 20,
        Call.notify_result (mkOutput 2 20)]).2.filterMap keyOf = [20, 20] := by
  decide

/-! ## C2 -/

/-- C2, as stated, fails: registering and completing the timestamp 5 twice
returns an entry stamped 5 twice. -/
theorem no_duplicate_emission_counterexample :
    ¬ ((run (NodeOutputManage.init 10 1000)
        [Call.notify_frame 5, Call.notify_result (mkOutput 1 5),
         Call.notify_frame 5, Call.notify_result (mkOutput 2 5)]).2.filterMap keyOf).Nodup := by
  decide

/-- C2 (amended, no duplicate match): for every finite sequence of
`notify_frame`, `notify_result` and `forget` calls on an initially empty
correlator in which no timestamp is passed to `notify_frame` more than once, no
timestamp key is matched (removed from both registries with an entry returned)
more than once over the whole run. -/
theorem no_duplicate_match (L T : Nat) (calls : List Call)
    (hd : (frameArgs calls).Nodup) :
    (runLog (NodeOutputManage.init L T) calls).Nodup := by
  obtain ⟨l, hperm, hsub⟩ := runLog_subperm (NodeOutputManage.init L T) calls
  have hl : l.Nodup := by
    refine List.Nodup.sublist hsub ?_
    simpa [NodeOutputManage.init] using hd
  exact hperm.nodup_iff.1 hl

/-- Instance of the amended C2 on a run that matches the keys 5 and 7. -/
theorem no_duplicate_match_witness :
    (frameArgs [Call.notify_frame 5, Call.notify_result (mkOutput 1 5),
        Call.notify_frame 7, Call.notify_result (mkOutput 2 7)]).Nodup ∧
    runLog (NodeOutputManage.init 10 1000)
      [Call.notify_frame 5, Call.notify_result (mkOutput 1 5),
        Call.notify_frame 7, Call.notify_result (mkOutput 2 7)] = [5, 7] ∧
    (runLog (NodeOutputManage.init 10 1000)
      [Call.notify_frame 5, Call.notify_result (mkOutput 1 5),
        Call.notify_frame 7, Call.notify_result (mkOutput 2 7)]).Nodup :=
  ⟨by decide, by decide, no_duplicate_match 10 1000 _ (by decide)⟩

/-! ## C3 -/

/-- C3, as stated, fails: a frame stamped 3 that is registered and completed
after the frame stamped 5 is returned after it. -/
theorem in_order_emission_counterexample :
    ¬ ((run (NodeOutputManage.init 10 1000)
        [Call.notify_frame 5, Call.notify_result (mkOutput 1 5),
         Call.notify_frame 3, Call.notify_result (mkOutput 2 3)]).2.filterMap keyOf).Pairwise
        (· ≤ ·) := by
  decide

/-- C3 (amended, in-order matching across calls): for every finite sequence of
`notify_frame`, `notify_result` and `forget` calls on an initially empty
correlator in which the timestamps passed to `notify_frame` are non-decreasing
in call order, the keys at which matches are made, concatenated in call order,
form a non-decreasing sequence. -/
theorem in_order_matching (L T : Nat) (calls : List Call)
    (hinc : (frameArgs calls).Pairwise (· ≤ ·)) :
    (runLog (NodeOutputManage.init L T) calls).Pairwise (· ≤ ·) := by
  have hp : ((NodeOutputManage.init L T).cache_frame_ ++ frameArgs calls).Pairwise (· ≤ ·) := by
    simpa [NodeOutputManage.init] using hinc
  exact hp.sublist (runLog_sublist (NodeOutputManage.init L T) calls hp)

/-- Instance of the amended C3 on a run that matches the keys 5, 5 and 9. -/
theorem in_order_matching_witness :
    (frameArgs [Call.notify_frame 5, Call.notify_result (mkOutput 1 5), Call.notify_frame 5,
        Call.notify_result (mkOutput 2 5), Call.notify_frame 9,
        Call.notify_result (mkOutput 3 9)]).Pairwise (· ≤ ·) ∧
    runLog (NodeOutputManage.init 10 1)
      [Call.notify_frame 5, Call.notify_result (mkOutput 1 5), Call.notify_frame 5,
        Call.notify_result (mkOutput 2 5), Call.notify_frame 9,
        Call.notify_result (mkOutput 3 9)] = [5, 5, 9] ∧
    (runLog (NodeOutputManage.init 10 1)
      [Call.notify_frame 5, Call.notify_result (mkOutput 1 5), Call.notify_frame 5,
        Call.notify_result (mkOutput 2 5), Call.notify_frame 9,
        Call.notify_result (mkOutput 3 9)]).Pairwise (· ≤ ·) :=
  ⟨by decide, by decide, in_order_matching 10 1 _ (by decide)⟩

/-! ## C8 -/

/-- C8 (emitted handle is the caller's): for every correlator state and every
call of `Feed` on a result `h`, every element of the returned vector is `h`. -/
theorem emitted_handle_is_argument (m : NodeOutputManage) (h o : DnnNodeOutput) :
    o ∈ (m.Feed h).2 → o = h := by
  rw [Feed_outputs]
  intro ho
  obtain ⟨_, _, rfl⟩ := List.mem_map.1 ho
  rfl


/-- Instance of C8: frame 5 is pending and the result stamped 5 is returned. -/
theorem emitted_handle_is_argument_witness :
    mkOutput 1 5 ∈ (((NodeOutputManage.init 10 1000).FeedTs 5).Feed (mkOutput 1 5)).2 ∧
    mkOutput 1 5 = mkOutput 1 5 :=
  ⟨by decide, emitted_handle_is_argument ((NodeOutputManage.init 10 1000).FeedTs 5)
    (mkOutput 1 5) (mkOutput 1 5) (by decide)⟩

/-! ## C4 -/

/-- Inserting under a key that no stored key undercuts puts the new entry first. -/
theorem mapAssign_min (t : Nat) (h : DnnNodeOutput) (os : List (Nat × DnnNodeOutput))
    (hmin : ∀ k ∈ keys os, t ≤ k) (hwf : (keys os).Pairwise (· < ·)) :
    ∃ rest, mapAssign t h os = (t, h) :: rest ∧
      (t ∈ keys os → rest.length + 1 = os.length) ∧
      (t ∉ keys os → rest.length = os.length) := by
  cases os with
  | nil => exact ⟨[], rfl, by simp [keys], by simp⟩
  | cons e es =>
    obtain ⟨k0, v0⟩ := e
    have hk0 : t ≤ k0 := hmin k0 (by simp [keys])
    simp only [mapAssign]
    split_ifs with h1 h2
    · refine ⟨(k0, v0) :: es, rfl, ?_, by simp⟩
      intro hmem
      exfalso
      simp only [keys, List.map_cons, List.mem_cons] at hmem
      rcases hmem with h3 | h3
      · omega
      · have := (List.pairwise_cons.1 hwf).1 t h3
        omega
    · exact ⟨es, rfl, by simp, by simp [keys, h2]⟩
    · omega


/-- C4, as stated, fails: with the frames 1 and 5 pending, the result for 5 is
not returned, because the only iteration of the loop looks at frame 1. -/
theorem match_correctness_counterexample :
    let m : NodeOutputManage := ((NodeOutputManage.init 10 1000).FeedTs 1).FeedTs 5
    m.cache_frame_ = [1, 5] ∧ m.cache_node_output_ = [] ∧ m.WF ∧ m.Bounded ∧ 1 ≤ m.cache_size_limit_ ∧ 5 ∈ m.cache_frame_ ∧
    keyOf (mkOutput 1 5) = some 5 ∧ mkOutput 1 5 ∉ (m.Feed (mkOutput 1 5)).2 := by
  decide

/-- C4 (amended, match correctness): in every well-formed correlator state
within the bound, with a limit below 256, in which the timestamp `t` of the
result `h` is the smallest key of the frame registry, no key of the result
registry is smaller than `t`, and the result registry either holds `t` already
or has fewer entries than the limit, `Feed h` returns a vector that contains
`h`. -/
theorem match_correctness (m : NodeOutputManage) (id : Nat) (hdr : Header)
    (hwf : m.WF) (hb : m.Bounded) (hL : m.cache_size_limit_ < 256)
    (hhead : m.cache_frame_.head? = some (stampToMs hdr.stamp))
    (hmin : ∀ k ∈ keys m.cache_node_output_, stampToMs hdr.stamp ≤ k)
    (hroom : stampToMs hdr.stamp ∈ keys m.cache_node_output_ ∨
      m.cache_node_output_.length < m.cache_size_limit_) :
    DnnNodeOutput.fasterRcnn id (some hdr) ∈
      (m.Feed (DnnNodeOutput.fasterRcnn id (some hdr))).2 := by
  obtain ⟨cf, co, L, T⟩ := m
  simp only at hL hhead hmin hroom
  obtain ⟨rest, hco, hin, hnin⟩ :=
    mapAssign_min (stampToMs hdr.stamp) (DnnNodeOutput.fasterRcnn id (some hdr)) co hmin hwf.2
  have hbo : co.length ≤ L := hb.2
  have hlen : rest.length + 1 ≤ L := by
    by_cases hmem : stampToMs hdr.stamp ∈ keys co
    · have := hin hmem
      omega
    · have := hnin hmem
      rcases hroom with h1 | h1
      · exact absurd h1 hmem
      · omega
  cases cf with
  | nil => simp at hhead
  | cons f fs =>
    simp only [List.head?_cons, Option.some.injEq] at hhead
    subst hhead
    have hmod : (rest.length + 1) % 256 = rest.length + 1 := Nat.mod_eq_of_lt (by omega)
    have hnot : ¬ (rest.length + 1 > L) := by omega
    simp only [NodeOutputManage.Feed, feedAt, insertOutput, hco, List.length_cons, hnot,
      if_false, List.isEmpty_cons, hmod, Bool.false_eq_true]
    rw [drain]
    simp only [if_true]
    rw [drain_outputs _ (by simp)]
    simp [emplaceIfSet]

/-- Instance of the amended C4: `Feed(5)` followed by the result stamped 5. -/
theorem match_correctness_witness :
    ((NodeOutputManage.init 10 1000).FeedTs 5).WF ∧
    mkOutput 1 5 ∈ (((NodeOutputManage.init 10 1000).FeedTs 5).Feed (mkOutput 1 5)).2 :=
  ⟨by decide, match_correctness ((NodeOutputManage.init 10 1000).FeedTs 5) 1
    { stamp := { sec := 0, nanosec := 5000000 } } (by decide) (by decide) (by decide)
    (by decide) (by decide) (by decide)⟩


/-! ## C5 -/

/-- With an empty result registry, `PostProcess` on a valid completion hands
exactly one result to the parser and leaves the result registry empty again. -/
theorem PostProcess_of_empty (m : NodeOutputManage) (id : Nat) (hdr : Header)
    (h0 : m.cache_node_output_ = []) :
    (PostProcess m (DnnNodeOutput.fasterRcnn id (some hdr))).1.cache_node_output_ = [] ∧
    (PostProcess m (DnnNodeOutput.fasterRcnn id (some hdr))).2 =
      some [DnnNodeOutput.fasterRcnn id (some hdr)] := by
  obtain ⟨cf, co, L, T⟩ := m
  simp only at h0
  subst h0
  by_cases hL : 1 > L
  · cases cf with
    | nil =>
      simp [PostProcess, NodeOutputManage.Feed, feedAt, insertOutput, mapAssign, hL,
        NodeOutputManage.Erase, keys]
    | cons f fs =>
      simp [PostProcess, NodeOutputManage.Feed, feedAt, insertOutput, mapAssign, hL,
        NodeOutputManage.Erase, keys, drain]
  · cases cf with
    | nil =>
      simp [PostProcess, NodeOutputManage.Feed, feedAt, insertOutput, mapAssign, hL,
        NodeOutputManage.Erase, keys, mapErase]
    | cons f fs =>
      simp only [PostProcess, NodeOutputManage.Feed, feedAt, insertOutput, mapAssign, hL,
        List.length_singleton, if_false, List.isEmpty_cons, Bool.false_eq_true,
        Nat.one_mod, drain]
      split_ifs <;>
        simp [NodeOutputManage.Erase, keys, mapErase, emplaceIfSet] at *


/-- Sequential pipeline runs keep the result registry empty between steps, and
every step handles exactly one result. -/
theorem pipeline_of_empty (m : NodeOutputManage) (events : List PipelineEvent)
    (h0 : m.cache_node_output_ = []) :
    (pipeline m events).1.cache_node_output_ = [] ∧
    (pipeline m events).2.map (Option.map List.length) =
      List.replicate (completions events) (some 1) := by
  induction events generalizing m with
  | nil => exact ⟨h0, rfl⟩
  | cons e es ih =>
    cases e with
    | frame ts =>
      simp only [pipeline, completions]
      exact ih (m.FeedTs ts) ((FeedTs_limit m ts).2.2.trans h0)
    | completion id hdr =>
      obtain ⟨p1, p2⟩ := PostProcess_of_empty m id hdr h0
      obtain ⟨i1, i2⟩ := ih (PostProcess m (DnnNodeOutput.fasterRcnn id (some hdr))).1 p1
      simp only [pipeline, completions, List.map_cons, List.replicate_succ]
      exact ⟨i1, by rw [i2, p2]; rfl⟩

/-- C5 (exactly one outbound pairing per completion): for every limit and
timeout and every run from an empty correlator made of frame registrations and
sequentially executed `PostProcess` steps on valid completions, each
`PostProcess` step goes on to parse and publish a list of results of length
exactly one (one list per completion, each of length 1). -/
theorem exactly_one_pairing (L T : Nat) (events : List PipelineEvent) :
    (pipeline (NodeOutputManage.init L T) events).2.map (Option.map List.length) =
      List.replicate (completions events) (some 1) :=
  (pipeline_of_empty (NodeOutputManage.init L T) events rfl).2


/-! ## C6 -/

/-- C6 (stale-frame timeout eviction): starting from an empty correlator with a
limit of at least 1, for every timeout `T`, every frame timestamp `f` and every
result `h` whose timestamp `r` satisfies `f < r` and `r - f > T`, registering
`f` and then feeding `h` returns the empty vector, leaves the frame registry
empty and leaves the result registry holding exactly `r ↦ h`. -/
theorem stale_frame_eviction (L T f id : Nat) (hdr : Header) (hL : 1 ≤ L)
    (hlt : f < stampToMs hdr.stamp) (hgap : stampToMs hdr.stamp - f > T) :
    ((((NodeOutputManage.init L T).FeedTs f).Feed
        (DnnNodeOutput.fasterRcnn id (some hdr))).2 = [] ∧
      (((NodeOutputManage.init L T).FeedTs f).Feed
        (DnnNodeOutput.fasterRcnn id (some hdr))).1.cache_frame_ = []) ∧
    (((NodeOutputManage.init L T).FeedTs f).Feed
        (DnnNodeOutput.fasterRcnn id (some hdr))).1.cache_node_output_ =
      [(stampToMs hdr.stamp, DnnNodeOutput.fasterRcnn id (some hdr))] := by
  have h1 : ¬ (1 > L) := by omega
  have h2 : ¬ (f = stampToMs hdr.stamp) := by omega
  simp [NodeOutputManage.init, NodeOutputManage.FeedTs, setInsert, NodeOutputManage.Feed,
    feedAt, insertOutput, mapAssign, drain, h1, h2, hlt, hgap]

/-- Instance of C6 with timeout 100, frame 1000 and result 1150. -/
theorem stale_frame_eviction_witness :
    ((((NodeOutputManage.init 1 100).FeedTs 1000).Feed (mkOutput 1 1150)).2 = [] ∧
      (((NodeOutputManage.init 1 100).FeedTs 1000).Feed (mkOutput 1 1150)).1.cache_frame_ = []) ∧
    (((NodeOutputManage.init 1 100).FeedTs 1000).Feed (mkOutput 1 1150)).1.cache_node_output_ =
      [(1150, mkOutput 1 1150)] :=
  stale_frame_eviction 1 100 1000 1 { stamp := { sec := 1, nanosec := 150000000 } }
    (by decide) (by decide) (by decide)


/-! ## C7 -/

theorem mem_setInsert (x y : Nat) (l : List Nat) : y ∈ setInsert x l ↔ y = x ∨ y ∈ l := by
  induction l with
  | nil => simp [setInsert]
  | cons z zs ih =>
    simp only [setInsert]
    split_ifs with h1 h2
    · simp
    · subst h2
      simp
    · simp only [List.mem_cons, ih]
      tauto

theorem setInsert_pairwise (x : Nat) (l : List Nat) (hl : l.Pairwise (· < ·)) :
    (setInsert x l).Pairwise (· < ·) := by
  induction l with
  | nil => simp [setInsert]
  | cons z zs ih =>
    obtain ⟨hz, hzs⟩ := List.pairwise_cons.1 hl
    simp only [setInsert]
    split_ifs with h1 h2
    · refine List.pairwise_cons.2 ⟨?_, hl⟩
      intro a ha
      rcases List.mem_cons.1 ha with rfl | ha
      · exact h1
      · exact lt_trans h1 (hz a ha)
    · exact hl
    · refine List.pairwise_cons.2 ⟨?_, ih hzs⟩
      intro a ha
      rcases (mem_setInsert x a zs).1 ha with rfl | ha
      · omega
      · exact hz a ha

theorem setInsert_length_of_mem (x : Nat) (l : List Nat) (hl : l.Pairwise (· < ·))
    (hx : x ∈ l) : (setInsert x l).length = l.length := by
  induction l with
  | nil => simp at hx
  | cons z zs ih =>
    obtain ⟨hz, hzs⟩ := List.pairwise_cons.1 hl
    simp only [setInsert]
    split_ifs with h1 h2
    · exfalso
      rcases List.mem_cons.1 hx with rfl | hx
      · omega
      · have := hz x hx
        omega
    · rfl
    · rcases List.mem_cons.1 hx with rfl | hx
      · exact absurd rfl h2
      · simp [ih hzs hx]

theorem FeedTs_topOf (m : NodeOutputManage) (x : Nat) (D : List Nat)
    (h : TopOf m.cache_size_limit_ m.cache_frame_ D) :
    TopOf m.cache_size_limit_ (m.FeedTs x).cache_frame_ (D ++ [x]) := by
  obtain ⟨ha, hb, hc, hd⟩ := h
  have hsorted := setInsert_pairwise x m.cache_frame_ ha
  have hlen := setInsert_length_le x m.cache_frame_
  have hmemD : ∀ d, d ∈ D ++ [x] ↔ d ∈ D ∨ d = x := by
    intro d
    simp
  simp only [NodeOutputManage.FeedTs]
  split_ifs with hev
  · -- the smallest key is evicted
    have hxS : x ∉ m.cache_frame_ := by
      intro hx
      have := setInsert_length_of_mem x _ ha hx
      omega
    have hSL : m.cache_frame_.length = m.cache_size_limit_ := by omega
    cases hS1 : setInsert x m.cache_frame_ with
    | nil => rw [hS1] at hev; simp at hev
    | cons hd0 tl =>
      rw [hS1] at hsorted hev hlen
      obtain ⟨hhd, htl⟩ := List.pairwise_cons.1 hsorted
      have hmem1 : ∀ y, y ∈ hd0 :: tl ↔ y = x ∨ y ∈ m.cache_frame_ := by
        intro y
        rw [← hS1]
        exact mem_setInsert x y _
      simp only [List.tail_cons]
      simp only [List.length_cons] at hev hlen
      refine ⟨htl, ?_, by omega, ?_⟩
      · intro s hs
        rcases (hmem1 s).1 (List.mem_cons_of_mem _ hs) with rfl | h1
        · simp
        · exact (hmemD s).2 (Or.inl (hb s h1))
      · intro d hdD hdS
        refine ⟨by omega, ?_⟩
        intro s hs
        by_cases hd1 : d ∈ hd0 :: tl
        · rcases List.mem_cons.1 hd1 with rfl | h1
          · exact hhd s hs
          · exact absurd h1 hdS
        · have hdx : d ≠ x := fun e => hd1 ((hmem1 d).2 (Or.inl e))
          have hdS0 : d ∉ m.cache_frame_ := fun e => hd1 ((hmem1 d).2 (Or.inr e))
          have hdD0 : d ∈ D := by
            rcases (hmemD d).1 hdD with h1 | h1
            · exact h1
            · exact absurd h1 hdx
          obtain ⟨_, hlt⟩ := hd d hdD0 hdS0
          rcases (hmem1 s).1 (List.mem_cons_of_mem _ hs) with rfl | h1
          · -- the new key is not the head, so the head is an old key
            have hhd0 : hd0 ∈ m.cache_frame_ := by
              rcases (hmem1 hd0).1 (List.mem_cons_self _ _) with h2 | h2
              · have := hhd s hs
                omega
              · exact h2
            exact lt_trans (hlt hd0 hhd0) (hhd s hs)
          · exact hlt s h1
  · -- nothing is evicted
    have hmem1 : ∀ y, y ∈ setInsert x m.cache_frame_ ↔ y = x ∨ y ∈ m.cache_frame_ :=
      fun y => mem_setInsert x y _
    refine ⟨hsorted, ?_, by simpa using hev, ?_⟩
    · intro s hs
      rcases (hmem1 s).1 hs with rfl | h1
      · simp
      · exact (hmemD s).2 (Or.inl (hb s h1))
    · intro d hdD hdS
      have hdx : d ≠ x := fun e => hdS ((hmem1 d).2 (Or.inl e))
      have hdS0 : d ∉ m.cache_frame_ := fun e => hdS ((hmem1 d).2 (Or.inr e))
      have hdD0 : d ∈ D := by
        rcases (hmemD d).1 hdD with h1 | h1
        · exact h1
        · exact absurd h1 hdx
      obtain ⟨hfull, hlt⟩ := hd d hdD0 hdS0
      have hxS : x ∈ m.cache_frame_ := by
        by_contra hx
        have : (setInsert x m.cache_frame_).length = m.cache_frame_.length + 1 := by
          have h1 := setInsert_length_le x m.cache_frame_
          have h2 : (setInsert x m.cache_frame_).Nodup :=
            hsorted.imp (fun h => Nat.ne_of_lt h)
          have h3 : (x :: m.cache_frame_).Subperm (setInsert x m.cache_frame_) := by
            refine List.subperm_of_subset ?_ ?_
            · exact List.nodup_cons.2 ⟨hx, ha.imp (fun h => Nat.ne_of_lt h)⟩
            · intro y hy
              exact (hmem1 y).2 (by simpa using hy)
          have h4 := h3.length_le
          simp only [List.length_cons] at h4
          omega
        omega
      refine ⟨?_, ?_⟩
      · rw [setInsert_length_of_mem x _ ha hxS]
        exact hfull
      · intro s hs
        rcases (hmem1 s).1 hs with rfl | h1
        · exact hlt s hxS
        · exact hlt s h1


theorem run_frames_topOf (m : NodeOutputManage) (D xs : List Nat)
    (h : TopOf m.cache_size_limit_ m.cache_frame_ D) :
    TopOf m.cache_size_limit_ (run m (xs.map Call.notify_frame)).1.cache_frame_ (D ++ xs) := by
  induction xs generalizing m D with
  | nil => simpa [run] using h
  | cons x xs ih =>
    have h1 := FeedTs_topOf m x D h
    have h2 := ih (m.FeedTs x) (D ++ [x]) (by rw [(FeedTs_limit m x).1]; exact h1)
    rw [(FeedTs_limit m x).1] at h2
    simpa [run, step] using h2

/-- Membership in a registry that holds the `L` largest members of `D`: fewer
than `L` distinct members of `D` are larger. -/
theorem TopOf.mem_iff {L : Nat} {S D : List Nat} (h : TopOf L S D) (x : Nat) :
    x ∈ S ↔ x ∈ D ∧ (D.toFinset.filter (fun y => x < y)).card < L := by
  obtain ⟨ha, hb, hc, hd⟩ := h
  have hnd : S.Nodup := ha.imp (fun h => Nat.ne_of_lt h)
  have hcard : S.toFinset.card = S.length := List.toFinset_card_of_nodup hnd
  constructor
  · intro hx
    refine ⟨hb x hx, ?_⟩
    have hsub : D.toFinset.filter (fun y => x < y) ⊆ S.toFinset.erase x := by
      intro y hy
      obtain ⟨hyD, hxy⟩ := Finset.mem_filter.1 hy
      have hyD0 : y ∈ D := List.mem_toFinset.1 hyD
      have hyS : y ∈ S := by
        by_contra hyS
        have := (hd y hyD0 hyS).2 x hx
        omega
      refine Finset.mem_erase.2 ⟨by omega, List.mem_toFinset.2 hyS⟩
    have h1 := Finset.card_le_card hsub
    have h2 : (S.toFinset.erase x).card = S.toFinset.card - 1 :=
      Finset.card_erase_of_mem (List.mem_toFinset.2 hx)
    have h3 : 0 < S.length := List.length_pos_of_mem hx
    omega
  · rintro ⟨hxD, hlt⟩
    by_contra hxS
    obtain ⟨hfull, hall⟩ := hd x hxD hxS
    have hsub : S.toFinset ⊆ D.toFinset.filter (fun y => x < y) := by
      intro y hy
      have hyS : y ∈ S := List.mem_toFinset.1 hy
      exact Finset.mem_filter.2 ⟨List.mem_toFinset.2 (hb y hyS), hall y hyS⟩
    have h1 := Finset.card_le_card hsub
    omega

/-- C7 (overflow eviction keeps the largest keys): for every limit `L` and every
finite sequence `xs` of timestamps fed with `Feed(ts)`, in any order, to an
empty correlator, the frame registry afterwards is ascending and holds exactly
the `L` largest distinct timestamps fed: `x` is in it if and only if `x` was fed
and fewer than `L` distinct fed timestamps are larger than `x` (so all of them
when fewer than `L` distinct timestamps were fed). -/
theorem overflow_keeps_largest (L T : Nat) (xs : List Nat) :
    (run (NodeOutputManage.init L T) (xs.map Call.notify_frame)).1.cache_frame_.Pairwise
      (· < ·) ∧
    ∀ x, x ∈ (run (NodeOutputManage.init L T) (xs.map Call.notify_frame)).1.cache_frame_ ↔
      x ∈ xs ∧ (xs.toFinset.filter (fun y => x < y)).card < L := by
  have h0 : TopOf (NodeOutputManage.init L T).cache_size_limit_
      (NodeOutputManage.init L T).cache_frame_ [] := by
    simp [TopOf, NodeOutputManage.init]
  have h1 := run_frames_topOf (NodeOutputManage.init L T) [] xs h0
  simp only [List.nil_append] at h1
  exact ⟨h1.1, fun x => TopOf.mem_iff h1 x⟩


/-! ## C9 -/

/-- In a quiescent state the loop changes nothing, however many iterations it has. -/
theorem drain_of_quiescent (h : DnnNodeOutput) (n : Nat) (m : NodeOutputManage)
    (acc : List DnnNodeOutput) (hq : m.Quiescent) : drain h n m acc = (m, acc) := by
  induction n with
  | zero => rfl
  | succ n ih =>
    unfold NodeOutputManage.Quiescent at hq
    rw [drain]
    split
    · rfl
    · rfl
    · next ff fs fo v os hf ho =>
      rw [hf, ho] at hq
      simp only at hq
      obtain ⟨h1, h2, h3⟩ := hq
      have h4 : ¬ (fo - ff > m.smart_output_timeout_ms_) := by omega
      have h5 : ¬ (ff - fo > m.smart_output_timeout_ms_) := by omega
      simp only [h1, h4, h5, if_false, ih]
      split_ifs <;> rfl

/-- The loop stops in a quiescent state, or every one of its `n` iterations
removed a head entry. -/
theorem drain_quiescent_or_spent (h : DnnNodeOutput) (n : Nat) (m : NodeOutputManage)
    (acc : List DnnNodeOutput) :
    (drain h n m acc).1.Quiescent ∨
    (drain h n m acc).1.cache_frame_.length + (drain h n m acc).1.cache_node_output_.length + n ≤
      m.cache_frame_.length + m.cache_node_output_.length := by
  induction n generalizing m acc with
  | zero => right; simp [drain]
  | succ n ih =>
    by_cases hq : m.Quiescent
    · left
      rw [drain_of_quiescent h (n + 1) m acc hq]
      exact hq
    · rw [drain]
      split
      · next hf => exact absurd (by simp [NodeOutputManage.Quiescent, hf]) hq
      · next hf ho => exact absurd (by simp [NodeOutputManage.Quiescent, hf, ho]) hq
      · next ff fs fo v os hf ho =>
        have hq2 : ¬ (ff ≠ fo ∧ fo - ff ≤ m.smart_output_timeout_ms_ ∧
            ff - fo ≤ m.smart_output_timeout_ms_) := by
          simpa [NodeOutputManage.Quiescent, hf, ho] using hq
        split_ifs with h1 h2 h3 h4 h5
        · rcases ih { m with cache_frame_ := fs, cache_node_output_ := os }
            (emplaceIfSet acc h) with h6 | h6
          · exact Or.inl h6
          · right
            rw [hf, ho]
            simp only [List.length_cons] at h6 ⊢
            omega
        · rcases ih { m with cache_frame_ := fs } acc with h6 | h6
          · exact Or.inl h6
          · right
            rw [hf]
            simp only [List.length_cons] at h6 ⊢
            omega
        · exfalso
          apply hq2
          omega
        · rcases ih { m with cache_node_output_ := os } acc with h6 | h6
          · exact Or.inl h6
          · right
            rw [ho]
            simp only [List.length_cons] at h6 ⊢
            omega
        · exfalso
          apply hq2
          omega
        · omega

/-- C9, as stated, fails: with three stale frames pending and a single result,
the loop runs once, drops one frame and returns with the smallest keys 2 and 10
still further apart than the timeout 0. -/
theorem drain_to_quiescence_counterexample :
    let m : NodeOutputManage := (((NodeOutputManage.init 10 0).FeedTs 1).FeedTs 2).FeedTs 3
    m.cache_frame_ = [1, 2, 3] ∧ m.cache_node_output_ = [] ∧ m.WF ∧ m.Bounded ∧
    (m.Feed (mkOutput 1 10)).1.cache_frame_ = [2, 3] ∧
    keys (m.Feed (mkOutput 1 10)).1.cache_node_output_ = [10] ∧
    ¬ (m.Feed (mkOutput 1 10)).1.Quiescent := by
  decide

/-- Outside a quiescent state the next iteration removes a head entry, and the
rest of the loop goes on from the state it leaves. -/
theorem drain_first_step (h : DnnNodeOutput) (m : NodeOutputManage)
    (acc : List DnnNodeOutput) (hq : ¬ m.Quiescent) :
    ∃ m1 acc1, RemovedHead m m1 ∧ ∀ j, drain h (j + 1) m acc = drain h j m1 acc1 := by
  obtain ⟨cf, co, L, T⟩ := m
  cases cf with
  | nil => exact absurd (by simp [NodeOutputManage.Quiescent]) hq
  | cons ff fs =>
    cases co with
    | nil => exact absurd (by simp [NodeOutputManage.Quiescent]) hq
    | cons e os =>
      obtain ⟨fo, v⟩ := e
      have hq2 : ¬ (ff ≠ fo ∧ fo - ff ≤ T ∧ ff - fo ≤ T) := by
        simpa [NodeOutputManage.Quiescent] using hq
      by_cases h1 : ff = fo
      · refine ⟨NodeOutputManage.mk fs os L T, emplaceIfSet acc h, ?_, ?_⟩
        · simp [RemovedHead]
        · intro j
          rw [drain]
          simp only [h1, if_true]
      · by_cases h2 : fo > ff
        · have h3 : fo - ff > T := by
            by_contra h3
            exact hq2 ⟨h1, by omega, by omega⟩
          refine ⟨NodeOutputManage.mk fs ((fo, v) :: os) L T, acc, ?_, ?_⟩
          · simp [RemovedHead]
          · intro j
            rw [drain]
            simp only [h1, h2, h3, if_true, if_false]
        · have h4 : ff > fo := by omega
          have h3 : ff - fo > T := by
            by_contra h3
            exact hq2 ⟨h1, by omega, by omega⟩
          refine ⟨NodeOutputManage.mk (ff :: fs) os L T, acc, ?_, ?_⟩
          · simp [RemovedHead]
          · intro j
            rw [drain]
            simp only [h1, h2, h3, h4, if_true, if_false]

/-- The loop ends in a quiescent state, or each of its `n` iterations removed a
head entry. -/
theorem drain_quiescent_or_steps (h : DnnNodeOutput) (n : Nat) (m : NodeOutputManage)
    (acc : List DnnNodeOutput) :
    (drain h n m acc).1.Quiescent ∨
    ∀ k : Fin n, RemovedHead (drain h k.val m acc).1 (drain h (k.val + 1) m acc).1 := by
  induction n generalizing m acc with
  | zero => exact Or.inr (fun k => k.elim0)
  | succ n ih =>
    by_cases hq : m.Quiescent
    · left
      rw [drain_of_quiescent h (n + 1) m acc hq]
      exact hq
    · obtain ⟨m1, acc1, hr, hstep⟩ := drain_first_step h m acc hq
      rw [hstep n]
      rcases ih m1 acc1 with h1 | h1
      · exact Or.inl h1
      · right
        rintro ⟨k, hk⟩
        cases k with
        | zero =>
          have e1 : drain h 0 m acc = (m, acc) := rfl
          have e2 : drain h 1 m acc = (m1, acc1) := hstep 0
          simp only [Nat.zero_add, e1, e2]
          exact hr
        | succ j =>
          simp only [hstep j, hstep (j + 1)]
          exact h1 ⟨j, by omega⟩

/-- C9 (amended, drain up to the loop bound): for every correlator state and
every call of `Feed` on a valid result, when the call returns either one of the
two registries is empty, or the smallest frame key and the smallest result key
are unequal and differ by at most `smart_output_timeout_ms_`, or the loop has
used all of its `loop_num` iterations and each of them removed a head entry:
the state returned is the state after `loop_num` iterations, and for every
`k < loop_num` the iteration that follows the first `k` found both registries
non-empty and removed the two heads (a match), the head of the frame registry
(a stale frame) or the head of the result registry (a stale result).  Here
`loop_num` is the size of the result registry after the bounded insertion,
reduced modulo 256. -/
theorem drain_to_quiescence_or_bound (m : NodeOutputManage) (id : Nat) (hdr : Header) :
    (m.Feed (DnnNodeOutput.fasterRcnn id (some hdr))).1.Quiescent ∨
    ((m.Feed (DnnNodeOutput.fasterRcnn id (some hdr))).1 =
        (drain (DnnNodeOutput.fasterRcnn id (some hdr))
          ((insertOutput m (stampToMs hdr.stamp)
            (DnnNodeOutput.fasterRcnn id (some hdr))).cache_node_output_.length % 256)
          (insertOutput m (stampToMs hdr.stamp) (DnnNodeOutput.fasterRcnn id (some hdr)))
          []).1 ∧
      ∀ k : Fin ((insertOutput m (stampToMs hdr.stamp)
          (DnnNodeOutput.fasterRcnn id (some hdr))).cache_node_output_.length % 256),
        RemovedHead
          (drain (DnnNodeOutput.fasterRcnn id (some hdr)) k.val
            (insertOutput m (stampToMs hdr.stamp) (DnnNodeOutput.fasterRcnn id (some hdr)))
            []).1
          (drain (DnnNodeOutput.fasterRcnn id (some hdr)) (k.val + 1)
            (insertOutput m (stampToMs hdr.stamp) (DnnNodeOutput.fasterRcnn id (some hdr)))
            []).1) := by
  by_cases he : (insertOutput m (stampToMs hdr.stamp)
      (DnnNodeOutput.fasterRcnn id (some hdr))).cache_frame_.isEmpty = true
  · left
    have hnil : (insertOutput m (stampToMs hdr.stamp)
        (DnnNodeOutput.fasterRcnn id (some hdr))).cache_frame_ = [] := by
      simpa using he
    simp only [NodeOutputManage.Feed, feedAt, he, if_true]
    simp [NodeOutputManage.Quiescent, hnil]
  · have hfeed : m.Feed (DnnNodeOutput.fasterRcnn id (some hdr)) =
        drain (DnnNodeOutput.fasterRcnn id (some hdr))
          ((insertOutput m (stampToMs hdr.stamp)
            (DnnNodeOutput.fasterRcnn id (some hdr))).cache_node_output_.length % 256)
          (insertOutput m (stampToMs hdr.stamp) (DnnNodeOutput.fasterRcnn id (some hdr)))
          [] := by
      simp only [NodeOutputManage.Feed, feedAt, he, if_false, Bool.false_eq_true]
    rcases drain_quiescent_or_steps (DnnNodeOutput.fasterRcnn id (some hdr))
      ((insertOutput m (stampToMs hdr.stamp)
        (DnnNodeOutput.fasterRcnn id (some hdr))).cache_node_output_.length % 256)
      (insertOutput m (stampToMs hdr.stamp) (DnnNodeOutput.fasterRcnn id (some hdr))) []
      with h1 | h1
    · left
      rw [hfeed]
      exact h1
    · right
      exact ⟨by rw [hfeed], h1⟩

/-- Instance of the amended C9 in which the bound is what stops the loop: with
the frames 1, 2, 3 pending and timeout 0, the single iteration granted to the
result stamped 10 drops frame 1, and the state returned is not quiescent. -/
theorem drain_bound_reached_example :
    let m : NodeOutputManage := (((NodeOutputManage.init 10 0).FeedTs 1).FeedTs 2).FeedTs 3
    (insertOutput m 10 (mkOutput 1 10)).cache_node_output_.length % 256 = 1 ∧
    (drain (mkOutput 1 10) 0 (insertOutput m 10 (mkOutput 1 10)) []).1.cache_frame_ =
      [1, 2, 3] ∧
    (drain (mkOutput 1 10) 1 (insertOutput m 10 (mkOutput 1 10)) []).1.cache_frame_ = [2, 3] ∧
    (m.Feed (mkOutput 1 10)).1 =
      (drain (mkOutput 1 10) 1 (insertOutput m 10 (mkOutput 1 10)) []).1 ∧
    ¬ (m.Feed (mkOutput 1 10)).1.Quiescent := by
  decide

/-! ## C10 -/

theorem mem_keys_mapAssign (k : Nat) (v : DnnNodeOutput) (a : Nat)
    (os : List (Nat × DnnNodeOutput)) :
    a ∈ keys (mapAssign k v os) ↔ a = k ∨ a ∈ keys os := by
  induction os with
  | nil => simp [mapAssign, keys]
  | cons e es ih =>
    obtain ⟨k0, v0⟩ := e
    simp only [mapAssign]
    split_ifs with h1 h2
    · simp [keys]
    · subst h2
      simp [keys]
    · simp only [keys, List.map_cons, List.mem_cons] at ih ⊢
      rw [ih]
      tauto

theorem mapAssign_pairwise (k : Nat) (v : DnnNodeOutput) (os : List (Nat × DnnNodeOutput))
    (hl : (keys os).Pairwise (· < ·)) : (keys (mapAssign k v os)).Pairwise (· < ·) := by
  induction os with
  | nil => simp [mapAssign, keys]
  | cons e es ih =>
    obtain ⟨k0, v0⟩ := e
    have hl0 : (k0 :: keys es).Pairwise (· < ·) := hl
    obtain ⟨hz, hzs⟩ := List.pairwise_cons.1 hl0
    simp only [mapAssign]
    split_ifs with h1 h2
    · refine List.pairwise_cons.2 ⟨?_, hl⟩
      intro a ha
      rcases List.mem_cons.1 ha with rfl | ha
      · exact h1
      · exact lt_trans h1 (hz a ha)
    · subst h2
      exact hl
    · refine List.pairwise_cons.2 ⟨?_, ih hzs⟩
      intro a ha
      rcases (mem_keys_mapAssign k v a es).1 ha with rfl | ha
      · omega
      · exact hz a ha

theorem insertOutput_WF (m : NodeOutputManage) (ts : Nat) (h : DnnNodeOutput) (hwf : m.WF) :
    (insertOutput m ts h).WF := by
  have h1 := mapAssign_pairwise ts h m.cache_node_output_ hwf.2
  simp only [insertOutput, NodeOutputManage.WF]
  split_ifs
  · refine ⟨hwf.1, ?_⟩
    have : (keys (mapAssign ts h m.cache_node_output_).tail).Sublist
        (keys (mapAssign ts h m.cache_node_output_)) :=
      (List.tail_sublist _).map Prod.fst
    exact h1.sublist this
  · exact ⟨hwf.1, h1⟩

theorem head_le_of_pairwise (l : List Nat) (k : Nat) (hl : l.Pairwise (· < ·))
    (hk : l.head? = some k) : ∀ x ∈ l, k ≤ x := by
  cases l with
  | nil => simp at hk
  | cons y ys =>
    simp only [List.head?_cons, Option.some.injEq] at hk
    subst hk
    intro x hx
    rcases List.mem_cons.1 hx with rfl | hx
    · exact le_refl _
    · exact le_of_lt ((List.pairwise_cons.1 hl).1 x hx)

theorem drainLog_ordered (n : Nat) (m : NodeOutputManage) (hwf : m.WF) :
    ((drainLog n m).map Prod.fst).Pairwise (· < ·) ∧
    ∀ e ∈ drainLog n m,
      (e.2.cache_frame_.head? = some e.1 ∧ ∀ f ∈ e.2.cache_frame_, e.1 ≤ f) ∧
      ((keys e.2.cache_node_output_).head? = some e.1 ∧
        ∀ k ∈ keys e.2.cache_node_output_, e.1 ≤ k) := by
  refine ⟨?_, ?_⟩
  · obtain ⟨pre, h1, h2⟩ := drain_decomp DnnNodeOutput.null n m []
    have h3 : pre.Sublist m.cache_frame_ := by
      rw [h1]
      exact List.sublist_append_left _ _
    exact hwf.1.sublist (h2.trans h3)
  · intro e he
    obtain ⟨s1, s2, s3, s4⟩ := drainLog_snapshot n m e he
    have w1 : e.2.cache_frame_.Pairwise (· < ·) := hwf.1.sublist s1.sublist
    have w2 : (keys e.2.cache_node_output_).Pairwise (· < ·) :=
      hwf.2.sublist (s2.sublist.map Prod.fst)
    exact ⟨⟨s3, head_le_of_pairwise _ _ w1 s3⟩, ⟨s4, head_le_of_pairwise _ _ w2 s4⟩⟩

/-- C10 (in-order draining within a call): for every well-formed correlator
state and every call of `Feed` on a result `h`, the keys at which the successive
matches of that call are made are strictly increasing, each of them is the
smallest key of the frame registry and the smallest key of the result registry
at the moment it is matched, and the call returns one entry per match. -/
theorem in_order_draining (m : NodeOutputManage) (h : DnnNodeOutput) (hwf : m.WF) :
    ((m.FeedLog h).map Prod.fst).Pairwise (· < ·) ∧
    (∀ e ∈ m.FeedLog h,
      (e.2.cache_frame_.head? = some e.1 ∧ ∀ f ∈ e.2.cache_frame_, e.1 ≤ f) ∧
      ((keys e.2.cache_node_output_).head? = some e.1 ∧
        ∀ k ∈ keys e.2.cache_node_output_, e.1 ≤ k)) ∧
    (m.Feed h).2.length = (m.FeedLog h).length := by
  refine ⟨?_, ?_, by rw [Feed_outputs, List.length_map]⟩
  · unfold NodeOutputManage.FeedLog
    split
    · simp only [feedAtLog]
      split_ifs
      · exact List.Pairwise.nil
      · exact (drainLog_ordered _ _ (insertOutput_WF m _ _ hwf)).1
    · exact List.Pairwise.nil
  · unfold NodeOutputManage.FeedLog
    split
    · simp only [feedAtLog]
      split_ifs
      · simp
      · exact (drainLog_ordered _ _ (insertOutput_WF m _ _ hwf)).2
    · simp

/-- Instance of C10: one call matches the keys 10 and 20 in this order. -/
theorem in_order_draining_witness :
    let m : NodeOutputManage :=
      { cache_frame_ := [10, 20, 30], cache_node_output_ := [(10, mkOutput 1 10)],
        cache_size_limit_ := 10, smart_output_timeout_ms_ := 1000 }
    m.WF ∧ (m.FeedLog (mkOutput 2 20)).map Prod.fst = [10, 20] ∧
    (m.Feed (mkOutput 2 20)).2 = [mkOutput 2 20, mkOutput 2 20] ∧
    ((m.FeedLog (mkOutput 2 20)).map Prod.fst).Pairwise (· < ·) :=
  ⟨by decide, by decide, by decide,
    (in_order_draining
      { cache_frame_ := [10, 20, 30], cache_node_output_ := [(10, mkOutput 1 10)],
        cache_size_limit_ := 10, smart_output_timeout_ms_ := 1000 }
      (mkOutput 2 20) (by decide)).1⟩


/-! ## The ordering invariant is kept by every call -/

theorem FeedTs_WF (m : NodeOutputManage) (ts : Nat) (hwf : m.WF) : (m.FeedTs ts).WF := by
  have h1 := setInsert_pairwise ts m.cache_frame_ hwf.1
  simp only [NodeOutputManage.FeedTs, NodeOutputManage.WF]
  split_ifs
  · exact ⟨h1.sublist (List.tail_sublist _), hwf.2⟩
  · exact ⟨h1, hwf.2⟩

theorem Feed_WF (m : NodeOutputManage) (h : DnnNodeOutput) (hwf : m.WF) : (m.Feed h).1.WF := by
  unfold NodeOutputManage.Feed
  split
  · next id hdr =>
    have h1 := insertOutput_WF m (stampToMs hdr.stamp) (DnnNodeOutput.fasterRcnn id (some hdr)) hwf
    simp only [feedAt]
    split_ifs
    · exact h1
    · obtain ⟨_, _, d3, d4⟩ := drain_frame (DnnNodeOutput.fasterRcnn id (some hdr))
        ((insertOutput m (stampToMs hdr.stamp)
          (DnnNodeOutput.fasterRcnn id (some hdr))).cache_node_output_.length % 256)
        (insertOutput m (stampToMs hdr.stamp) (DnnNodeOutput.fasterRcnn id (some hdr))) []
      exact ⟨h1.1.sublist d3.sublist, h1.2.sublist (d4.sublist.map Prod.fst)⟩
  · exact hwf

theorem Erase_WF (m : NodeOutputManage) (ts : Nat) (hwf : m.WF) : (m.Erase ts).WF := by
  simp only [NodeOutputManage.Erase, NodeOutputManage.WF]
  refine ⟨?_, ?_⟩
  · split_ifs
    · exact hwf.1.sublist (List.filter_sublist _)
    · exact hwf.1
  · split_ifs
    · exact hwf.2.sublist ((List.filter_sublist _).map Prod.fst)
    · exact hwf.2

/-- Every state reached from the empty correlator has ordered registries. -/
theorem run_WF (m : NodeOutputManage) (calls : List Call) (hwf : m.WF) :
    (run m calls).1.WF := by
  induction calls generalizing m with
  | nil => exact hwf
  | cons c cs ih =>
    cases c with
    | notify_frame ts => exact ih _ (FeedTs_WF m ts hwf)
    | notify_result h => exact ih _ (Feed_WF m h hwf)
    | forget ts => exact ih _ (Erase_WF m ts hwf)


/-! ## C11 -/

/-- C11 (`Erase` removes exactly one key): for every correlator state and
timestamp `ts`, after `Erase(ts)` the key `ts` is in neither registry, the frame
keys other than `ts` and the result entries (key and handle) under keys other
than `ts` are exactly those of before, in the same order, the two constants are
untouched, and a second `Erase(ts)` changes nothing. -/
theorem forget_removes_exactly_one_key (m : NodeOutputManage) (ts : Nat) :
    (ts ∉ (m.Erase ts).cache_frame_ ∧ ts ∉ keys (m.Erase ts).cache_node_output_) ∧
    ((∀ x, x ∈ (m.Erase ts).cache_frame_ ↔ x ∈ m.cache_frame_ ∧ x ≠ ts) ∧
      (m.Erase ts).cache_frame_.Sublist m.cache_frame_) ∧
    ((∀ e, e ∈ (m.Erase ts).cache_node_output_ ↔ e ∈ m.cache_node_output_ ∧ e.1 ≠ ts) ∧
      (m.Erase ts).cache_node_output_.Sublist m.cache_node_output_) ∧
    ((m.Erase ts).cache_size_limit_ = m.cache_size_limit_ ∧
      (m.Erase ts).smart_output_timeout_ms_ = m.smart_output_timeout_ms_) ∧
    (m.Erase ts).Erase ts = m.Erase ts := by
  have hf : (if ts ∈ m.cache_frame_ then setErase ts m.cache_frame_ else m.cache_frame_) =
      setErase ts m.cache_frame_ := by
    split_ifs with h
    · rfl
    · unfold setErase
      exact (List.filter_eq_self.2 (fun a ha => by
        have : a ≠ ts := fun e => h (e ▸ ha)
        simpa using this)).symm
  have ho : (if ts ∈ keys m.cache_node_output_ then mapErase ts m.cache_node_output_
      else m.cache_node_output_) = mapErase ts m.cache_node_output_ := by
    split_ifs with h
    · rfl
    · unfold mapErase
      exact (List.filter_eq_self.2 (fun a ha => by
        have : a.1 ≠ ts := fun e => h (by
          unfold keys
          exact e ▸ List.mem_map_of_mem Prod.fst ha)
        simpa using this)).symm
  have e1 : (m.Erase ts).cache_frame_ = setErase ts m.cache_frame_ := by
    simp only [NodeOutputManage.Erase]
    exact hf
  have e2 : (m.Erase ts).cache_node_output_ = mapErase ts m.cache_node_output_ := by
    simp only [NodeOutputManage.Erase]
    exact ho
  have n1 : ts ∉ setErase ts m.cache_frame_ := by
    simp [setErase]
  have n2 : ts ∉ keys (mapErase ts m.cache_node_output_) := by
    simp [keys, mapErase]
  refine ⟨⟨by rw [e1]; exact n1, by rw [e2]; exact n2⟩, ⟨?_, ?_⟩, ⟨?_, ?_⟩,
    Erase_limit m ts, ?_⟩
  · intro x
    rw [e1]
    simp [setErase]
  · rw [e1]
    exact List.filter_sublist _
  · intro e
    rw [e2]
    simp [mapErase]
  · rw [e2]
    exact List.filter_sublist _
  · have h1 : (m.Erase ts).Erase ts =
        { m.Erase ts with
          cache_frame_ := (m.Erase ts).cache_frame_,
          cache_node_output_ := (m.Erase ts).cache_node_output_ } := by
      have a1 : ts ∉ (m.Erase ts).cache_frame_ := by rw [e1]; exact n1
      have a2 : ts ∉ keys (m.Erase ts).cache_node_output_ := by rw [e2]; exact n2
      simp only [NodeOutputManage.Erase] at a1 a2 ⊢
      simp only [a1, a2, if_false]
    exact h1


/-! ## C12 -/

/-- C12 (empty frame registry yields no match): for every correlator state whose
frame registry is empty and every valid result `h` with timestamp `ts`, `Feed h`
returns the empty vector, leaves the frame registry empty and the constants
untouched, and changes the result registry only by the bounded insertion of
`ts ↦ h`: the entry is assigned, then the entry with the smallest key is removed
when the size exceeds `cache_size_limit_`. -/
theorem empty_frames_no_match (m : NodeOutputManage) (id : Nat) (hdr : Header)
    (hf : m.cache_frame_ = []) :
    ((m.Feed (DnnNodeOutput.fasterRcnn id (some hdr))).2 = [] ∧
      (m.Feed (DnnNodeOutput.fasterRcnn id (some hdr))).1.cache_frame_ = []) ∧
    (m.Feed (DnnNodeOutput.fasterRcnn id (some hdr))).1.cache_node_output_ =
      (if (mapAssign (stampToMs hdr.stamp) (DnnNodeOutput.fasterRcnn id (some hdr))
            m.cache_node_output_).length > m.cache_size_limit_ then
        (mapAssign (stampToMs hdr.stamp) (DnnNodeOutput.fasterRcnn id (some hdr))
          m.cache_node_output_).tail
      else
        mapAssign (stampToMs hdr.stamp) (DnnNodeOutput.fasterRcnn id (some hdr))
          m.cache_node_output_) ∧
    (m.Feed (DnnNodeOutput.fasterRcnn id (some hdr))).1.cache_size_limit_ =
      m.cache_size_limit_ ∧
    (m.Feed (DnnNodeOutput.fasterRcnn id (some hdr))).1.smart_output_timeout_ms_ =
      m.smart_output_timeout_ms_ := by
  obtain ⟨h1, _, _⟩ := insertOutput_fields m (stampToMs hdr.stamp)
    (DnnNodeOutput.fasterRcnn id (some hdr))
  have he : (insertOutput m (stampToMs hdr.stamp)
      (DnnNodeOutput.fasterRcnn id (some hdr))).cache_frame_.isEmpty = true := by
    rw [h1, hf]
    rfl
  have hfeed : m.Feed (DnnNodeOutput.fasterRcnn id (some hdr)) =
      (insertOutput m (stampToMs hdr.stamp) (DnnNodeOutput.fasterRcnn id (some hdr)), []) := by
    simp only [NodeOutputManage.Feed, feedAt, he, if_true]
  rw [hfeed]
  refine ⟨⟨rfl, by rw [h1]; exact hf⟩, ?_, ?_, ?_⟩
  · simp only [insertOutput]
    split_ifs <;> rfl
  · simp only [insertOutput]
    split_ifs <;> rfl
  · simp only [insertOutput]
    split_ifs <;> rfl

/-- Instance of C12: a full result registry (limit 2) and no frame; the result
stamped 7 is inserted and the smallest key 3 is evicted. -/
theorem empty_frames_no_match_witness :
    let m : NodeOutputManage :=
      { cache_frame_ := [], cache_node_output_ := [(3, mkOutput 1 3), (5, mkOutput 2 5)],
        cache_size_limit_ := 2, smart_output_timeout_ms_ := 1000 }
    m.cache_frame_ = [] ∧
    (m.Feed (mkOutput 3 7)).2 = [] ∧
    (m.Feed (mkOutput 3 7)).1.cache_frame_ = [] ∧
    (m.Feed (mkOutput 3 7)).1.cache_node_output_ = [(5, mkOutput 2 5), (7, mkOutput 3 7)] :=
  ⟨rfl,
    (empty_frames_no_match
      { cache_frame_ := [], cache_node_output_ := [(3, mkOutput 1 3), (5, mkOutput 2 5)],
        cache_size_limit_ := 2, smart_output_timeout_ms_ := 1000 }
      3 { stamp := { sec := 0, nanosec := 7000000 } } rfl).1.1,
    (empty_frames_no_match
      { cache_frame_ := [], cache_node_output_ := [(3, mkOutput 1 3), (5, mkOutput 2 5)],
        cache_size_limit_ := 2, smart_output_timeout_ms_ := 1000 }
      3 { stamp := { sec := 0, nanosec := 7000000 } } rfl).1.2,
    by decide⟩

/-! ## C13 -/

/-- C13 (stale-result eviction): for every timeout `T`, every limit of at least
1, every frame timestamp `f` and every valid result `h` whose timestamp `r`
satisfies `r < f` and `f - r > T`, in the state whose frame registry is `{f}`
and whose result registry is empty, `Feed h` returns the empty vector, leaves
the result registry empty (`r` is inserted and dropped again) and leaves the
frame registry equal to `{f}`. -/
theorem stale_result_eviction (L T f id : Nat) (hdr : Header) (hL : 1 ≤ L)
    (hlt : stampToMs hdr.stamp < f) (hgap : f - stampToMs hdr.stamp > T) :
    (({ cache_frame_ := [f], cache_node_output_ := [], cache_size_limit_ := L,
        smart_output_timeout_ms_ := T } : NodeOutputManage).Feed
      (DnnNodeOutput.fasterRcnn id (some hdr))).2 = [] ∧
    (({ cache_frame_ := [f], cache_node_output_ := [], cache_size_limit_ := L,
        smart_output_timeout_ms_ := T } : NodeOutputManage).Feed
      (DnnNodeOutput.fasterRcnn id (some hdr))).1.cache_node_output_ = [] ∧
    (({ cache_frame_ := [f], cache_node_output_ := [], cache_size_limit_ := L,
        smart_output_timeout_ms_ := T } : NodeOutputManage).Feed
      (DnnNodeOutput.fasterRcnn id (some hdr))).1.cache_frame_ = [f] := by
  have h1 : ¬ (1 > L) := by omega
  have h2 : ¬ (f = stampToMs hdr.stamp) := by omega
  have h3 : ¬ (stampToMs hdr.stamp > f) := by omega
  simp [NodeOutputManage.Feed, feedAt, insertOutput, mapAssign, drain, h1, h2, h3, hlt, hgap]

/-- Instance of C13 with timeout 100, frame 1150 and result 1000. -/
theorem stale_result_eviction_witness :
    (({ cache_frame_ := [1150], cache_node_output_ := [], cache_size_limit_ := 1,
        smart_output_timeout_ms_ := 100 } : NodeOutputManage).Feed (mkOutput 1 1000)).2 = [] ∧
    (({ cache_frame_ := [1150], cache_node_output_ := [], cache_size_limit_ := 1,
        smart_output_timeout_ms_ := 100 } : NodeOutputManage).Feed
      (mkOutput 1 1000)).1.cache_node_output_ = [] ∧
    (({ cache_frame_ := [1150], cache_node_output_ := [], cache_size_limit_ := 1,
        smart_output_timeout_ms_ := 100 } : NodeOutputManage).Feed
      (mkOutput 1 1000)).1.cache_frame_ = [1150] :=
  stale_result_eviction 1 100 1150 1 { stamp := { sec := 1, nanosec := 0 } }
    (by decide) (by decide) (by decide)

/-! ## C17 -/

/-- C17 (invalid completion is a no-op): for every correlator state, `Feed`
called with a null pointer, with an object that is not a `FasterRcnnOutput`, or
with a `FasterRcnnOutput` that has no image header returns the empty vector and
leaves the correlator (both registries and the constants) exactly unchanged. -/
theorem invalid_completion_noop (m : NodeOutputManage) (id : Nat) :
    m.Feed DnnNodeOutput.null = (m, []) ∧
    m.Feed (DnnNodeOutput.other id) = (m, []) ∧
    m.Feed (DnnNodeOutput.fasterRcnn id none) = (m, []) :=
  ⟨rfl, rfl, rfl⟩


/-! ## C16 -/

/-- C16 (the pipeline leaves no result behind): in every run from an empty
correlator made of frame registrations and sequentially executed `PostProcess`
steps on valid completions, the result registry is empty after each step (the
state after the first `n` events, for every `n`); hence the next completion
finds `loop_num` at most 1, whatever its stamp. -/
theorem pipeline_leaves_no_result (L T : Nat) (events : List PipelineEvent) (n id : Nat)
    (hdr : Header) :
    (pipeline (NodeOutputManage.init L T) (events.take n)).1.cache_node_output_ = [] ∧
    (insertOutput (pipeline (NodeOutputManage.init L T) (events.take n)).1
      (stampToMs hdr.stamp)
      (DnnNodeOutput.fasterRcnn id (some hdr))).cache_node_output_.length % 256 ≤ 1 := by
  have h0 := (pipeline_of_empty (NodeOutputManage.init L T) (events.take n) rfl).1
  refine ⟨h0, ?_⟩
  simp only [insertOutput, h0, mapAssign, List.length_singleton]
  split_ifs <;> simp

/-! ## C14 -/

/-- C14 fails on the code.  The frames 10 and 20 are registered and the result
stamped 20 completes first and stays in the registry; `Feed` on the result
stamped 10 then matches the keys 10 and 20.  At the second match the registry
holds the handle stamped 20 under the key 20, yet the call returns its own
argument, the handle stamped 10, for both matches. -/
theorem matched_handle_mismatch :
    let m : NodeOutputManage :=
      (run (NodeOutputManage.init 10 1000)
        [Call.notify_frame 10, Call.notify_frame 20, Call.notify_result (mkOutput 2 20)]).1
    m.cache_frame_ = [10, 20] ∧ m.cache_node_output_ = [(20, mkOutput 2 20)] ∧
    (m.FeedLog (mkOutput 1 10)).map Prod.fst = [10, 20] ∧
    (m.FeedLog (mkOutput 1 10)).map storedAt = [some (mkOutput 1 10), some (mkOutput 2 20)] ∧
    (m.Feed (mkOutput 1 10)).2 = [mkOutput 1 10, mkOutput 1 10] ∧
    (m.Feed (mkOutput 1 10)).2.map some ≠ (m.FeedLog (mkOutput 1 10)).map storedAt := by
  decide

/-! ## C15 -/

/-- The key is a 32-bit quantity whatever the stamp. -/
theorem stampToMs_lt (t : Time) : stampToMs t < 2 ^ 32 := by
  unfold stampToMs
  have h1 : (0 : Int) ≤ (t.sec * 1000 + ((t.nanosec / 1000 / 1000 : Nat) : Int)) % (2 ^ 32 : Int) :=
    Int.emod_nonneg _ (by norm_num)
  have h2 : (t.sec * 1000 + ((t.nanosec / 1000 / 1000 : Nat) : Int)) % (2 ^ 32 : Int) <
      (2 ^ 32 : Int) := Int.emod_lt_of_pos _ (by norm_num)
  omega

/-- While `sec * 1000` fits a signed 32-bit integer (up to 24 days after the
epoch) the key is the exact number of milliseconds. -/
theorem stampToMs_exact_of_small (t : Time) (h0 : 0 ≤ t.sec) (h1 : t.sec * 1000 < 2 ^ 31)
    (h2 : t.nanosec < 1000000000) : (stampToMs t : Int) = exactMs t := by
  unfold stampToMs exactMs
  have h3 : t.nanosec / 1000 / 1000 = t.nanosec / 1000000 := by
    rw [Nat.div_div_eq_div_mul]
  have h4 : t.nanosec / 1000000 < 1000 := by omega
  rw [h3]
  have h5 : (0 : Int) ≤ t.sec * 1000 + ((t.nanosec / 1000000 : Nat) : Int) := by omega
  have h6 : t.sec * 1000 + ((t.nanosec / 1000000 : Nat) : Int) < (2 ^ 32 : Int) := by omega
  rw [Int.emod_eq_of_lt h5 h6]
  exact Int.toNat_of_nonneg h5

/-- C15 fails on the code.  For the stamp 1700000000 s + 5000000 ns the exact
value is 1700000000005 ms, while the 32-bit expression yields 3487918085. -/
theorem timestamp_key_wraps :
    (0 : Int) ≤ 1700000000 ∧ (1700000000 : Int) < 2 ^ 31 ∧ 5000000 < 1000000000 ∧
    exactMs { sec := 1700000000, nanosec := 5000000 } = 1700000000005 ∧
    stampToMs { sec := 1700000000, nanosec := 5000000 } = 3487918085 ∧
    (stampToMs { sec := 1700000000, nanosec := 5000000 } : Int) ≠
      exactMs { sec := 1700000000, nanosec := 5000000 } := by
  decide

end Mono2d
